import Mathlib

/-!
# Aurora Code — shallow embedding

Shallow embedding of the Aurora Code core (TypeScript) in Lean 4:
GF(2^8) arithmetic (`lib/encoding/galoisField.ts`), Reed–Solomon
encode/erasure-decode (`lib/encoding/reedSolomon.ts`), the frame codec and
packet encoder (`lib/encoding/frameEncoder.ts`), and the multi-frame decoder
(`lib/detection/decoder.ts`).

Conventions:
* JS `Uint8Array`s are modelled as `List Nat`; a store into a `Uint8Array`
  truncates mod 256, and the model applies `% 256` at the points where
  unconstrained numbers enter an array (all internally produced values are
  already `< 256`).
* JS `number` arithmetic on the integer ranges exercised here is exact, and
  the `Math.ceil` calls on IEEE-754 products are evaluated to the integer
  ceilings they produce (see `ceilMul08`, `jsCeilDiv`).
* The random 16-bit sequence id drawn by `encodeData` is passed in as an
  explicit argument.
-/

/-- Write `v` at position `i` of a list (out-of-range writes are dropped,
matching an in-bounds-only usage of JS typed arrays). -/
def listSet : List Nat → Nat → Nat → List Nat
  | [], _, _ => []
  | _ :: xs, 0, v => v :: xs
  | x :: xs, n + 1, v => x :: listSet xs n v

/-- One step of the exp-table generation loop of `initTables`:
`x <<= 1; if (x >= 256) x ^= 0x11d`. -/
def gfStep (x : Nat) : Nat :=
  if 2 * x ≥ 256 then (2 * x) ^^^ 0x11d else 2 * x

/-- The successive values taken by `x` in `initTables`, starting from `x₀`. -/
def expSeq : Nat → Nat → List Nat
  | 0, _ => []
  | n + 1, x => x :: expSeq n (gfStep x)

/-- The 255 values `gfExp[0..254]` written by `initTables`. -/
def gfExpList : List Nat := expSeq 255 1

/-- The 512-entry exp table: `initTables` writes `gfExp[i]` and
`gfExp[i + 255]` for `i < 255`; entries 510 and 511 stay 0. -/
def gfExpT : List Nat := gfExpList ++ gfExpList ++ [0, 0]

/-- The 256-entry log table: starting from zeros, `initTables` writes
`gfLog[x_i] = i` for `i < 255`, and finally `gfLog[0] = 0`. -/
def gfLogT : List Nat :=
  listSet
    ((List.range 255).foldl (fun acc i => listSet acc (gfExpList.getD i 0) i)
      (List.replicate 256 0))
    0 0

/-- `gfAdd`: addition in GF(2^8) is XOR. -/
def gfAdd (a b : Nat) : Nat := a ^^^ b

/-- `gfSub`: subtraction equals addition in GF(2^8). -/
def gfSub (a b : Nat) : Nat := a ^^^ b

/-- `gfMul`: table-based multiplication,
`0` if either factor is `0`, else `gfExp[gfLog[a] + gfLog[b]]`. -/
def gfMul (a b : Nat) : Nat :=
  if a = 0 ∨ b = 0 then 0
  else gfExpT.getD (gfLogT.getD a 0 + gfLogT.getD b 0) 0

/-- Errors thrown by the GF division/inverse helpers. -/
inductive GfErr where
  | divisionByZero
  | inverseOfZero
  deriving DecidableEq

/-- `gfDiv`: throws on division by zero, else
`gfExp[gfLog[a] + 255 - gfLog[b]]`. -/
def gfDiv (a b : Nat) : Except GfErr Nat :=
  if b = 0 then .error .divisionByZero
  else if a = 0 then .ok 0
  else .ok (gfExpT.getD (gfLogT.getD a 0 + 255 - gfLogT.getD b 0) 0)

/-- `gfPow`: `1` for exponent 0, `0` for base 0, else
`gfExp[(gfLog[a] * n) % 255]`. -/
def gfPow (a n : Nat) : Nat :=
  if n = 0 then 1
  else if a = 0 then 0
  else gfExpT.getD (gfLogT.getD a 0 * n % 255) 0

/-- `gfInverse`: throws on 0, else `gfExp[255 - gfLog[a]]`. -/
def gfInverse (a : Nat) : Except GfErr Nat :=
  if a = 0 then .error .inverseOfZero
  else .ok (gfExpT.getD (255 - gfLogT.getD a 0) 0)

/-- `polyMul` (coefficient index 0 = lowest degree), mirroring the
accumulate-into-`result[i+j]` double loop. -/
def polyMul (p q : List Nat) : List Nat :=
  (List.range p.length).foldl
    (fun res i =>
      (List.range q.length).foldl
        (fun r j =>
          listSet r (i + j) (gfAdd (r.getD (i + j) 0) (gfMul (p.getD i 0) (q.getD j 0))))
        res)
    (List.replicate (p.length + q.length - 1) 0)

/-- `polyScale`: scalar multiple of a polynomial. -/
def polyScale (p : List Nat) (scalar : Nat) : List Nat :=
  p.map (fun x => gfMul x scalar)

/-- `polyAdd`: coefficient-wise XOR, padded to the longer length. -/
def polyAdd (p q : List Nat) : List Nat :=
  (List.range (max p.length q.length)).map
    (fun i => gfAdd (p.getD i 0) (q.getD i 0))

/-- `polyEval` by Horner's rule, from the top coefficient down. -/
def polyEval (p : List Nat) (x : Nat) : Nat :=
  p.foldr (fun c acc => gfAdd (gfMul acc x) c) 0

/-- `generatorPoly nsym = ∏_{i<nsym} (x + α^i)`, built exactly as the source:
repeated `polyMul` with the factor `[gfExp[i], 1]`. -/
def generatorPoly (nsym : Nat) : List Nat :=
  (List.range nsym).foldl (fun g i => polyMul g [gfExpT.getD i 0, 1]) [1]

/-- `rsEncode`'s synthetic-division loop: for `i = k-1 .. 0`, if the
coefficient at `pc + i` is nonzero, XOR `gen * coef` into positions
`i .. i + gen.length - 1`. -/
def rsEncodeDiv (gen : List Nat) (pc k : Nat) (msg : List Nat) : List Nat :=
  (List.range k).reverse.foldl
    (fun m i =>
      let coef := m.getD (pc + i) 0
      if coef ≠ 0 then
        (List.range gen.length).foldl
          (fun m2 j => listSet m2 (i + j) (gfAdd (m2.getD (i + j) 0) (gfMul (gen.getD j 0) coef)))
          m
      else m)
    msg

/-- `rsEncode`: systematic encoding; data first, then `parityCount` parity
bytes obtained as `msg(x)·x^parityCount mod generator`. -/
def rsEncode (data : List Nat) (parityCount : Nat) : List Nat :=
  let gen := generatorPoly parityCount
  let msg0 := List.replicate parityCount 0 ++ data.map (· % 256)
  let msg := rsEncodeDiv gen parityCount data.length msg0
  data.map (· % 256) ++ msg.take parityCount

/-- `calcSyndromes`: `S_i = R(α^i)` for `i < parityCount`. -/
def calcSyndromes (received : List Nat) (parityCount : Nat) : List Nat :=
  (List.range parityCount).map (fun i => polyEval received (gfPow 2 i))

/-- The erasure-position scan of `rsDecode`: position `i` holding `null`
contributes the polynomial index `n - 1 - i`. -/
def erasureScan (n : Nat) : Nat → List (Option Nat) → List Nat
  | _, [] => []
  | i, x :: xs =>
    if x = none then (n - 1 - i) :: erasureScan n (i + 1) xs
    else erasureScan n (i + 1) xs

/-- `calcErasureLocator`: repeated `polyMul` with factors `[α^pos, 1]`. -/
def calcErasureLocator (erasurePositions : List Nat) : List Nat :=
  erasurePositions.foldl (fun loc pos => polyMul loc [gfPow 2 pos, 1]) [1]

/-- The formal-derivative evaluation inside `calcErasureValues`:
sum over odd `j` of `locator[j] * xiInv^(j-1)`. -/
def locatorDeriv (locator : List Nat) (xiInv : Nat) : Nat :=
  (List.range locator.length).foldl
    (fun acc j =>
      if j % 2 = 1 then gfAdd acc (gfMul (locator.getD j 0) (gfPow xiInv (j - 1)))
      else acc)
    0

/-- `calcErasureValues` (Forney): Ω = S·Λ mod x^n, then
`e_i = x_i · Ω(x_i⁻¹) / Λ'(x_i⁻¹)`; GF throws are propagated. -/
def calcErasureValues (syndromes erasurePositions locator : List Nat) :
    Except GfErr (List Nat) :=
  let n := erasurePositions.length
  if n = 0 then .ok []
  else
    let omega := (List.range n).map (fun i =>
      (List.range (i + 1)).foldl
        (fun sum j => gfAdd sum (gfMul (syndromes.getD j 0) (locator.getD (i - j) 0))) 0)
    (List.range n).mapM (fun i => do
      let xi := gfPow 2 (erasurePositions.getD i 0)
      let xiInv ← gfInverse xi
      let omegaVal := (List.range n).foldl
        (fun acc j => gfAdd acc (gfMul (omega.getD j 0) (gfPow xiInv j))) 0
      let q ← gfDiv omegaVal (locatorDeriv locator xiInv)
      pure (gfMul xi q))

/-- `rsDecode`: erasure-only decoding. `.ok none` models the JS `null`
return; `.error` models a thrown GF error (caught by the frame decoder). -/
def rsDecode (data : List (Option Nat)) (dataLength parityCount : Nat) :
    Except GfErr (Option (List Nat)) :=
  let n := data.length
  let erasurePositions := erasureScan n 0 data
  if erasurePositions.length > parityCount then .ok none
  else
    let received := (List.range n).map (fun i => (data.getD (n - 1 - i) none).getD 0 % 256)
    if erasurePositions.length = 0 then
      .ok (some ((List.range dataLength).map (fun i => received.getD (n - 1 - i) 0)))
    else
      let syndromes := calcSyndromes received parityCount
      if syndromes.all (· == 0) then
        .ok (some ((List.range dataLength).map (fun i => received.getD (n - 1 - i) 0)))
      else do
        let locator := calcErasureLocator erasurePositions
        let values ← calcErasureValues syndromes erasurePositions locator
        let corrected := (List.range erasurePositions.length).foldl
          (fun r i =>
            let pos := erasurePositions.getD i 0
            listSet r pos (gfAdd (r.getD pos 0) (values.getD i 0)))
          received
        pure (some ((List.range dataLength).map (fun i => corrected.getD (n - 1 - i) 0)))

/-!
## UTF-8 (model of the platform `TextEncoder` / `TextDecoder`)

`encodeData` and `FrameDecoder.decode` use the JS builtins `TextEncoder` and
`TextDecoder` (WHATWG Encoding Standard). These are not repository code; they
are modelled here byte-exactly: `utf8EncChar` is standard UTF-8 encoding of a
unicode scalar value, `utf8DecodeAux` is the UTF-8 decoder in its
replacement-character (non-fatal) mode.
-/

/-- UTF-8 encoding of one unicode scalar value (a Lean `Char`). -/
def utf8EncChar (c : Char) : List Nat :=
  let v := c.toNat
  if v < 0x80 then [v]
  else if v < 0x800 then [0xC0 + v / 64, 0x80 + v % 64]
  else if v < 0x10000 then [0xE0 + v / 4096, 0x80 + v / 64 % 64, 0x80 + v % 64]
  else [0xF0 + v / 262144, 0x80 + v / 4096 % 64, 0x80 + v / 64 % 64, 0x80 + v % 64]

/-- `new TextEncoder().encode(s)`: UTF-8 bytes of a string. -/
def utf8Encode (s : String) : List Nat :=
  s.data.flatMap utf8EncChar

/-- One step of WHATWG UTF-8 decoding in U+FFFD-replacement (non-fatal)
mode: consume one scalar starting at lead byte `b` with remaining input `bs`,
returning the decoded (or replacement) character and the unconsumed suffix.
An invalid lead byte is replaced; an invalid continuation byte emits a
replacement and is reconsumed. -/
def utf8DecodeStep (b : Nat) (bs : List Nat) : Char × List Nat :=
  if b < 0x80 then (Char.ofNat b, bs)
  else if b < 0xC2 then (Char.ofNat 0xFFFD, bs)
  else if b < 0xE0 then
    match bs with
    | b2 :: bs2 =>
      if 0x80 ≤ b2 ∧ b2 < 0xC0 then
        (Char.ofNat ((b - 0xC0) * 64 + (b2 - 0x80)), bs2)
      else (Char.ofNat 0xFFFD, bs)
    | [] => (Char.ofNat 0xFFFD, [])
  else if b < 0xF0 then
    match bs with
    | b2 :: bs2 =>
      if (if b = 0xE0 then 0xA0 else 0x80) ≤ b2 ∧ b2 ≤ (if b = 0xED then 0x9F else 0xBF) then
        match bs2 with
        | b3 :: bs3 =>
          if 0x80 ≤ b3 ∧ b3 < 0xC0 then
            (Char.ofNat ((b - 0xE0) * 4096 + (b2 - 0x80) * 64 + (b3 - 0x80)), bs3)
          else (Char.ofNat 0xFFFD, bs2)
        | [] => (Char.ofNat 0xFFFD, [])
      else (Char.ofNat 0xFFFD, bs)
    | [] => (Char.ofNat 0xFFFD, [])
  else if b < 0xF5 then
    match bs with
    | b2 :: bs2 =>
      if (if b = 0xF0 then 0x90 else 0x80) ≤ b2 ∧ b2 ≤ (if b = 0xF4 then 0x8F else 0xBF) then
        match bs2 with
        | b3 :: bs3 =>
          if 0x80 ≤ b3 ∧ b3 < 0xC0 then
            match bs3 with
            | b4 :: bs4 =>
              if 0x80 ≤ b4 ∧ b4 < 0xC0 then
                (Char.ofNat
                    ((b - 0xF0) * 262144 + (b2 - 0x80) * 4096 + (b3 - 0x80) * 64 + (b4 - 0x80)),
                  bs4)
              else (Char.ofNat 0xFFFD, bs3)
            | [] => (Char.ofNat 0xFFFD, [])
          else (Char.ofNat 0xFFFD, bs2)
        | [] => (Char.ofNat 0xFFFD, [])
      else (Char.ofNat 0xFFFD, bs)
    | [] => (Char.ofNat 0xFFFD, [])
  else (Char.ofNat 0xFFFD, bs)

/-- Drive `utf8DecodeStep` over the whole input; the fuel bounds the number
of decoded characters and any fuel `≥ bytes.length` is enough. -/
def utf8DecodeAux : Nat → List Nat → List Char
  | 0, _ => []
  | _ + 1, [] => []
  | fuel + 1, b :: bs =>
    let s := utf8DecodeStep b bs
    s.1 :: utf8DecodeAux fuel s.2

/-- `new TextDecoder().decode(bytes)` as a `List Char`. -/
def utf8Decode (bytes : List Nat) : List Char := utf8DecodeAux bytes.length bytes

/-- The decode-then-trim step of `FrameDecoder.decode`:
`TextDecoder` output truncated at the first NUL (`text.indexOf('\0')`). -/
def utf8DecodeTrim (bytes : List Nat) : String :=
  let cs := utf8Decode bytes
  if cs.contains (Char.ofNat 0) then String.mk (cs.takeWhile (fun c => c != Char.ofNat 0))
  else String.mk cs

/-!
## CRC-8

Modelled from the spec: `lib/encoding/crc8.ts` is not among the provided
sources (only its import and this wiring). Per spec §4.3/§6 it is CRC-8-CCITT:
polynomial `0x07`, initial value `0x00`, no reflection, no final XOR.
No claim's truth depends on the concrete checksum values: the multi-frame
decoder never inspects `checksum`, and the frame-codec claims treat it as an
opaque byte.
-/

/-- One MSB-first CRC-8 shift step with polynomial `0x07`. -/
def crc8Step (c : Nat) : Nat :=
  if 128 ≤ c then (2 * c) % 256 ^^^ 0x07 else (2 * c) % 256

/-- Feed one byte into the CRC-8 state. -/
def crc8Byte (c b : Nat) : Nat :=
  crc8Step (crc8Step (crc8Step (crc8Step (crc8Step (crc8Step (crc8Step (crc8Step (c ^^^ b))))))))

/-- `crc8(data)`: CRC-8-CCITT over a byte list, initial value 0. -/
def crc8 (data : List Nat) : Nat :=
  data.foldl crc8Byte 0

/-!
## Frame codec and packet encoder (`lib/encoding/frameEncoder.ts`)
-/

/-- The `AuroraFrame` record: `dataChunk` is the 10-byte chunk. -/
structure AuroraFrame where
  frameIndex : Nat
  totalFrames : Nat
  sequenceId : Nat
  dataChunk : List Nat
  checksum : Nat
  deriving DecidableEq

/-- `serializeFrame`: the 16-byte wire form; `& 0xff` masks are the source's,
the data-chunk stores truncate because the target is a `Uint8Array`. -/
def serializeFrame (frame : AuroraFrame) : List Nat :=
  [frame.frameIndex % 256, frame.totalFrames % 256,
    frame.sequenceId / 256 % 256, frame.sequenceId % 256] ++
  (List.range 10).map (fun i => frame.dataChunk.getD i 0 % 256) ++
  [frame.checksum % 256, 0]

/-- `deserializeFrame`: non-validating read of the 16-byte form. -/
def deserializeFrame (data : List Nat) : AuroraFrame :=
  { frameIndex := data.getD 0 0
    totalFrames := data.getD 1 0
    sequenceId := data.getD 2 0 * 256 + data.getD 3 0
    dataChunk := (List.range 10).map (fun i => data.getD (4 + i) 0)
    checksum := data.getD 14 0 }

/-- `verifyFrameChecksum`. -/
def verifyFrameChecksum (frame : AuroraFrame) : Bool :=
  crc8 frame.dataChunk == frame.checksum

/-- The `EncodedPacket` record returned by `encodeData`. -/
structure EncodedPacket where
  sequenceId : Nat
  totalFrames : Nat
  dataFrames : Nat
  parityFrames : Nat
  frames : List AuroraFrame
  originalDataLength : Nat
  deriving DecidableEq

/-- `encodeData`: UTF-8 encode, pad to a `D × 10` matrix, RS-encode each of
the 10 byte columns with `P` parity rows, wrap the `D+P` rows as frames.
The random sequence id is an explicit argument here.

Integer readings of the float expressions, exact for every list length `L`
representable in JS (`L < 2^52`):
* `Math.ceil(L / 10) = (L + 9) / 10` in `Nat` arithmetic;
* `Math.ceil(D * (1 - 0.8) / 0.8) = (D + 3) / 4`: the IEEE-754 double
  constant `(1 - 0.8) / 0.8 = 0.2499999999999999306…` lies within `2⁻⁵³`
  relative of `1/4`, so the ceiling of the rounded product agrees with
  `⌈D/4⌉` throughout the range. -/
def encodeData (sequenceId : Nat) (input : String) : EncodedPacket :=
  let rawBytes := utf8Encode input
  let dataFramesNeeded := (rawBytes.length + 9) / 10
  let parityFrames := max 4 ((dataFramesNeeded + 3) / 4)
  let totalFrames := dataFramesNeeded + parityFrames
  let paddedData := (List.range (dataFramesNeeded * 10)).map (fun i => rawBytes.getD i 0)
  let encodedColumns := (List.range 10).map (fun bytePos =>
    rsEncode ((List.range dataFramesNeeded).map
      (fun frameIdx => paddedData.getD (frameIdx * 10 + bytePos) 0)) parityFrames)
  let frames := (List.range totalFrames).map (fun frameIdx =>
    let dataChunk := (List.range 10).map (fun bytePos => (encodedColumns.getD bytePos []).getD frameIdx 0)
    { frameIndex := frameIdx
      totalFrames := totalFrames
      sequenceId := sequenceId
      dataChunk := dataChunk
      checksum := crc8 dataChunk : AuroraFrame })
  { sequenceId := sequenceId
    totalFrames := totalFrames
    dataFrames := dataFramesNeeded
    parityFrames := parityFrames
    frames := frames
    originalDataLength := rawBytes.length }

/-!
## Multi-frame decoder (`lib/detection/decoder.ts`)

The mutable `FrameDecoder` class is embedded as explicit state passing:
`addFrame` returns the new state together with its boolean result, `decode`
is a function of the state. The JS `Map<number, AuroraFrame>` is an
insertion-ordered association list with unique keys. The interpolated error
strings of `DecodeResult.error` are represented by the structured
`DecodeErrKind` carrying the same data.
-/

/-- `DecoderState`; `none` models the `null` fields of the fresh state. -/
structure DecoderState where
  sequenceId : Option Nat
  totalFrames : Option Nat
  dataFrames : Option Nat
  parityFrames : Option Nat
  collectedFrames : List (Nat × AuroraFrame)
  originalDataLength : Option Nat
  deriving DecidableEq

/-- The state a fresh `FrameDecoder` starts with (also the `reset()` state). -/
def emptyState : DecoderState :=
  { sequenceId := none, totalFrames := none, dataFrames := none,
    parityFrames := none, collectedFrames := [], originalDataLength := none }

/-- `Map.get`. -/
def mapGet (m : List (Nat × AuroraFrame)) (k : Nat) : Option AuroraFrame :=
  (m.find? (fun p => p.1 == k)).map (fun p => p.2)

/-- `Map.set`: overwrite in place if the key exists, else append. -/
def mapSet (m : List (Nat × AuroraFrame)) (k : Nat) (v : AuroraFrame) :
    List (Nat × AuroraFrame) :=
  if (m.find? (fun p => p.1 == k)).isSome then
    m.map (fun p => if p.1 == k then (k, v) else p)
  else m ++ [(k, v)]

/-- `Math.ceil(totalFrames * 0.8)`: the IEEE-754 double `0.8` is
`0.8000000000000000444…`, and for every frame count `t < 2^50` the ceiling of
the rounded product `t * 0.8` equals `⌈4t/5⌉`, i.e. `(4t + 4) / 5` in `Nat`
arithmetic. -/
def ceilMul08 (t : Nat) : Nat := (4 * t + 4) / 5

/-- The field assignments shared by the first-frame branch and the
new-sequence branch of `addFrame`. -/
def adoptFrame (st : DecoderState) (f : AuroraFrame) : DecoderState :=
  { st with
    sequenceId := some f.sequenceId
    totalFrames := some f.totalFrames
    dataFrames := some (ceilMul08 f.totalFrames)
    parityFrames := some (f.totalFrames - ceilMul08 f.totalFrames) }

/-- `FrameDecoder.addFrame`: adopt the sequence if unset, reset-and-adopt on
a different sequence id, reject an out-of-range frame index, else store. -/
def addFrame (st : DecoderState) (f : AuroraFrame) : DecoderState × Bool :=
  let st1 := if st.sequenceId = none then adoptFrame st f else st
  let st2 := if st1.sequenceId ≠ some f.sequenceId then adoptFrame emptyState f else st1
  if f.frameIndex < st2.totalFrames.getD 0 then
    ({ st2 with collectedFrames := mapSet st2.collectedFrames f.frameIndex f }, true)
  else (st2, false)

/-- `DecoderProgress` (the float `percentage` field is omitted; no claim
mentions it). -/
structure DecoderProgress where
  collected : Nat
  required : Nat
  total : Nat
  canDecode : Bool
  deriving DecidableEq

/-- `FrameDecoder.getProgress`: `null` fields read as 0 via `|| 0`. -/
def getProgress (st : DecoderState) : DecoderProgress :=
  let total := st.totalFrames.getD 0
  let dataFrames := st.dataFrames.getD 0
  let collected := st.collectedFrames.length
  { collected := collected, required := dataFrames, total := total,
    canDecode := decide (dataFrames ≤ collected) }

/-- `FrameDecoder.getMissingIndices`. -/
def getMissingIndices (st : DecoderState) : List Nat :=
  (List.range (st.totalFrames.getD 0)).filter (fun i => (mapGet st.collectedFrames i).isNone)

/-- The stats record of a `DecodeResult`. -/
structure DecodeStats where
  totalFrames : Nat
  collectedFrames : Nat
  missingFrames : List Nat
  recoveredFrames : Nat
  deriving DecidableEq

/-- The error cases of `FrameDecoder.decode`, with the data interpolated
into the JS message strings. -/
inductive DecodeErrKind where
  | insufficientFrames (collected required : Nat)
  | columnFailed (bytePos : Nat)
  | decodeThrown (e : GfErr)
  deriving DecidableEq

/-- `DecodeResult`. -/
structure DecodeResult where
  success : Bool
  data : Option String
  error : Option DecodeErrKind
  stats : DecodeStats
  deriving DecidableEq

/-- One iteration of the per-column loop of `FrameDecoder.decode`: build the
byte column for `bytePos` (`null` for a missing frame) and RS-decode it; the
inner `Except Nat` records the first failing byte position, the outer
`Except GfErr` a thrown GF error. -/
def colStep (st : DecoderState) (t d p : Nat)
    (acc : Except Nat (List (List Nat))) (bytePos : Nat) :
    Except GfErr (Except Nat (List (List Nat))) :=
  match acc with
  | .error bp => pure (.error bp)
  | .ok cols => do
    let column := (List.range t).map
      (fun frameIdx => (mapGet st.collectedFrames frameIdx).map
        (fun fr => fr.dataChunk.getD bytePos 0))
    match (← rsDecode column d p) with
    | none => pure (.error bytePos)
    | some dec => pure (.ok (cols ++ [dec]))

/-- The per-column loop of `FrameDecoder.decode`: `colStep` over the ten
byte positions. -/
def decodeColumns (st : DecoderState) (t d p : Nat) :
    Except GfErr (Except Nat (List (List Nat))) :=
  (List.range 10).foldlM (colStep st t d p) (.ok [])

/-- `FrameDecoder.decode`. -/
def decode (st : DecoderState) : DecodeResult :=
  let progress := getProgress st
  if !progress.canDecode then
    { success := false, data := none
      error := some (.insufficientFrames progress.collected progress.required)
      stats := { totalFrames := progress.total, collectedFrames := progress.collected,
                 missingFrames := getMissingIndices st, recoveredFrames := 0 } }
  else
    let totalFrames := st.totalFrames.getD 0
    let dataFrames := st.dataFrames.getD 0
    let parityFrames := st.parityFrames.getD 0
    match decodeColumns st totalFrames dataFrames parityFrames with
    | .error e =>
      { success := false, data := none, error := some (.decodeThrown e)
        stats := { totalFrames := progress.total, collectedFrames := progress.collected,
                   missingFrames := getMissingIndices st, recoveredFrames := 0 } }
    | .ok (.error bytePos) =>
      { success := false, data := none, error := some (.columnFailed bytePos)
        stats := { totalFrames := totalFrames, collectedFrames := progress.collected,
                   missingFrames := getMissingIndices st, recoveredFrames := 0 } }
    | .ok (.ok decodedColumns) =>
      let decodedData := (List.range (dataFrames * 10)).map
        (fun idx => (decodedColumns.getD (idx % 10) []).getD (idx / 10) 0)
      let text := utf8DecodeTrim decodedData
      { success := true, data := some text, error := none
        stats := { totalFrames := totalFrames, collectedFrames := progress.collected,
                   missingFrames := getMissingIndices st,
                   recoveredFrames := (getMissingIndices st).length } }

/-- `decodeFromFrames`: feed every frame into a fresh decoder, then decode. -/
def decodeFromFrames (frames : List AuroraFrame) : DecodeResult :=
  decode (frames.foldl (fun st f => (addFrame st f).1) emptyState)

/-!
### Proof infrastructure: packed table constants

Walking the 512-entry table lists element-by-element is quadratic for the
definitional evaluator, so for the finitely many table facts the tables are
pinned once to big-`Nat` constants (8 bits per entry, little-endian) and all
lookups go through `lookupB`, which the evaluator handles with arbitrary-
precision arithmetic.
-/

/-- Pack a byte list into one `Nat`, 8 bits per entry, entry 0 lowest. -/
def packBytes (l : List Nat) : Nat := l.foldr (fun b acc => b + 256 * acc) 0

/-- Read entry `i` of a `packBytes`-packed table. -/
def lookupB (tbl i : Nat) : Nat := (tbl >>> (8 * i)) &&& 255

/-- The value of `packBytes gfExpT`, pinned by `pinExp`. -/
def gfExpN : Nat :=
  8856990713409824987183140402374358080674248354215423657725458004488207893438392946030888853375904797289504668347160626187132259699900233138648534461763796553722681762569641945119264861220663755468484037720775188535579952245867663006651507277791222666826785483398433307595704877043200076058100196638910845779782293078032926818358696911279575842852319355700605339911765372424152090200116912196812683442216396899668384855648195394238364200816963036045261203126476910443940504312987208021345653905171248397066478845569494078144977197837111232127732754508096250939318709245866461879354629945230799664051954596316140836780717108354261181748492094461244742858401085820322168057750326071736368712266714827098764897370398784052097986092416779378404705019203020335569119892153447474284880772368378344689255354826179669527487614603533424485383665010357433079299522588467683458117463774085267711371273156937819115392343347060478494473386782195599410389734005551742428694560297619569031029357707022930644351916425117765030612268580539533293361144518654644548322964103094579667389630079007276152875920723587307542406162776191331872344722220447978477718188404304137896878643387669563613408028725344812418906929574157450205698549093433583337985

/-- The value of `packBytes gfLogT`, pinned by `pinLog`. -/
def gfLogN : Nat :=
  22135253156888987530748098150270024343632497605293634117281264061560962248099620766229961468867162294233796152347975563017024165690400661622462404646302566225833645086064538892198543335321514950294300187779610338557442029018619797274438901674641748676613670242915365385819254959901651105240253464034662486586186382979728982817772067067513442677601938078891989292316012868233806586592927239821351197800766822366321181463280924672822998103315976779850880337712374790938628529953751181886374687897611504386983350015558142994211516619836411558782076806704747441947939324473761869443721989389604670425385080942269787340800

/-- Fast form of an exp-table entry (`gfExpT.getD i 0` for `i < 512`). -/
def gfE (i : Nat) : Nat := lookupB gfExpN i

/-- Fast form of a log-table entry (`gfLogT.getD a 0` for `a < 256`). -/
def gfLg (a : Nat) : Nat := lookupB gfLogN a

/-!
## Theorems

### GF(2^8) table facts

All finite facts about the generated tables are established by kernel
evaluation over the packed constants; the algebraic laws are then derived
symbolically. The key structural fact is `gfE_succ`: consecutive exp-table
entries are related by the byte-level doubling step `gfStep`, which is
XOR-linear — distributivity then follows by induction along the discrete
logarithm.
-/

theorem allRange {n : Nat} {p : Nat → Bool} (h : (List.range n).all p = true) :
    ∀ i < n, p i = true := by
  intro i hi
  exact List.all_eq_true.mp h i (List.mem_range.mpr hi)

theorem lookupB_packBytes :
    ∀ (l : List Nat), (∀ x ∈ l, x < 256) → ∀ i < l.length,
      lookupB (packBytes l) i = l.getD i 0 := by
  intro l
  induction l with
  | nil => intro _ i hi; simp at hi
  | cons b t ih =>
    intro hb i hi
    have hblt : b < 256 := hb b (List.mem_cons_self b t)
    have hpack : packBytes (b :: t) = b + 256 * packBytes t := rfl
    match i with
    | 0 =>
      simp only [lookupB, hpack, Nat.mul_zero, Nat.shiftRight_zero, List.getD_cons_zero]
      have : (255 : Nat) = 2 ^ 8 - 1 := rfl
      rw [this, Nat.and_pow_two_sub_one_eq_mod]
      omega
    | i + 1 =>
      have hstep : lookupB (packBytes (b :: t)) (i + 1) = lookupB (packBytes t) i := by
        simp only [lookupB, hpack, Nat.shiftRight_eq_div_pow]
        congr 1
        have h8 : 8 * (i + 1) = 8 + 8 * i := by omega
        rw [h8, Nat.pow_add, ← Nat.div_div_eq_div_mul]
        congr 1
        omega
      rw [hstep, List.getD_cons_succ]
      exact ih (fun x hx => hb x (List.mem_cons_of_mem b hx)) i (by simpa using hi)

set_option maxRecDepth 100000 in
theorem pinExp : packBytes gfExpT = gfExpN := by rfl

set_option maxRecDepth 100000 in
theorem pinLog : packBytes gfLogT = gfLogN := by rfl

set_option maxRecDepth 100000 in
theorem expT_bounded : (gfExpT.all fun x => decide (x < 256)) = true := by rfl

set_option maxRecDepth 100000 in
theorem logT_bounded : (gfLogT.all fun x => decide (x < 256)) = true := by rfl

set_option maxRecDepth 100000 in
theorem expT_len : gfExpT.length = 512 := by rfl

set_option maxRecDepth 100000 in
theorem logT_len : gfLogT.length = 256 := by rfl

/-- Bridge: exp-table reads are packed-constant reads. -/
theorem expT_getD (i : Nat) (h : i < 512) : gfExpT.getD i 0 = gfE i := by
  have hb : ∀ x ∈ gfExpT, x < 256 := by
    intro x hx
    simpa using List.all_eq_true.mp expT_bounded x hx
  rw [gfE, ← pinExp, lookupB_packBytes gfExpT hb i (by rw [expT_len]; exact h)]

/-- Bridge: log-table reads are packed-constant reads. -/
theorem logT_getD (a : Nat) (h : a < 256) : gfLogT.getD a 0 = gfLg a := by
  have hb : ∀ x ∈ gfLogT, x < 256 := by
    intro x hx
    simpa using List.all_eq_true.mp logT_bounded x hx
  rw [gfLg, ← pinLog, lookupB_packBytes gfLogT hb a (by rw [logT_len]; exact h)]

set_option maxRecDepth 1000000 in
theorem packed_succ : ((List.range 255).all fun i =>
    gfE ((i + 1) % 255) == gfStep (gfE i)) = true := by rfl

set_option maxRecDepth 1000000 in
theorem packed_bounds : ((List.range 255).all fun i =>
    (gfE i != 0) && decide (gfE i < 256)) = true := by rfl

set_option maxRecDepth 1000000 in
theorem packed_logexp : ((List.range 256).all fun a =>
    (a == 0) || ((gfE (gfLg a) == a) && decide (gfLg a < 255))) = true := by rfl

set_option maxRecDepth 1000000 in
theorem packed_explog : ((List.range 255).all fun i =>
    gfLg (gfE i) == i) = true := by rfl

set_option maxRecDepth 1000000 in
theorem packed_wrap : ((List.range 510).all fun i =>
    gfE i == gfE (i % 255)) = true := by rfl

/-- Exp-table recurrence: the next entry is the doubling step of the last. -/
theorem gfE_succ (i : Nat) (h : i < 255) : gfE ((i + 1) % 255) = gfStep (gfE i) := by
  have := allRange packed_succ i h
  simpa using this

/-- Exp-table entries are nonzero bytes. -/
theorem gfE_bounds (i : Nat) (h : i < 255) : gfE i ≠ 0 ∧ gfE i < 256 := by
  have := allRange packed_bounds i h
  simp only [Bool.and_eq_true, bne_iff_ne, decide_eq_true_eq] at this
  exact this

/-- `exp ∘ log` is the identity on nonzero bytes, and logs stay below 255. -/
theorem gfE_gfLg (a : Nat) (h : a < 256) (h0 : a ≠ 0) : gfE (gfLg a) = a ∧ gfLg a < 255 := by
  have := allRange packed_logexp a h
  simp only [Bool.or_eq_true, beq_iff_eq, Bool.and_eq_true, decide_eq_true_eq] at this
  rcases this with h' | h'
  · exact absurd h' h0
  · exact h'

/-- `log ∘ exp` is the identity on `[0, 255)`. -/
theorem gfLg_gfE (i : Nat) (h : i < 255) : gfLg (gfE i) = i := by
  have := allRange packed_explog i h
  simpa using this

/-- The doubled exp table wraps at 255. -/
theorem gfE_wrap (i : Nat) (h : i < 510) : gfE i = gfE (i % 255) := by
  have := allRange packed_wrap i h
  simpa using this

theorem gfLg_one : gfLg 1 = 0 := by rfl

/-!
### GF(2^8) algebraic laws
-/

/-- Normal form of a nonzero product: `gfMul a b = gfE ((gfLg a + gfLg b) % 255)`. -/
theorem gfMul_nf (a b : Nat) (ha : a < 256) (ha0 : a ≠ 0) (hb : b < 256) (hb0 : b ≠ 0) :
    gfMul a b = gfE ((gfLg a + gfLg b) % 255) := by
  obtain ⟨-, hla⟩ := gfE_gfLg a ha ha0
  obtain ⟨-, hlb⟩ := gfE_gfLg b hb hb0
  rw [gfMul, if_neg (by tauto), logT_getD a ha, logT_getD b hb,
    expT_getD (gfLg a + gfLg b) (by omega), gfE_wrap (gfLg a + gfLg b) (by omega)]

/-- A nonzero product is a nonzero byte with log `(gfLg a + gfLg b) % 255`. -/
theorem gfMul_props (a b : Nat) (ha : a < 256) (ha0 : a ≠ 0) (hb : b < 256) (hb0 : b ≠ 0) :
    gfMul a b ≠ 0 ∧ gfMul a b < 256 ∧ gfLg (gfMul a b) = (gfLg a + gfLg b) % 255 := by
  have hm : (gfLg a + gfLg b) % 255 < 255 := Nat.mod_lt _ (by omega)
  obtain ⟨h1, h2⟩ := gfE_bounds _ hm
  rw [gfMul_nf a b ha ha0 hb hb0]
  exact ⟨h1, h2, gfLg_gfE _ hm⟩

theorem gfMul_zero_left (b : Nat) : gfMul 0 b = 0 := by simp [gfMul]

theorem gfMul_zero_right (a : Nat) : gfMul a 0 = 0 := by simp [gfMul]

/-- `gfMul` is commutative (unconditionally: the table reads are symmetric). -/
theorem gfMul_comm (a b : Nat) : gfMul a b = gfMul b a := by
  unfold gfMul
  rw [Nat.add_comm]
  exact if_congr or_comm rfl rfl

/-- `gfMul a 1 = a` for bytes. -/
theorem gfMul_one (a : Nat) (ha : a < 256) : gfMul a 1 = a := by
  by_cases h0 : a = 0
  · simp [h0, gfMul]
  · obtain ⟨he, hl⟩ := gfE_gfLg a ha h0
    rw [gfMul_nf a 1 ha h0 (by omega) (by omega), gfLg_one, Nat.add_zero,
      Nat.mod_eq_of_lt hl, he]

/-- `gfMul` is associative on bytes. -/
theorem gfMul_assoc (a b c : Nat) (ha : a < 256) (hb : b < 256) (hc : c < 256) :
    gfMul (gfMul a b) c = gfMul a (gfMul b c) := by
  by_cases ha0 : a = 0
  · simp [ha0, gfMul_zero_left]
  by_cases hb0 : b = 0
  · simp [hb0, gfMul_zero_left, gfMul_zero_right]
  by_cases hc0 : c = 0
  · simp [hc0, gfMul_zero_right]
  obtain ⟨hab0, hab, hlab⟩ := gfMul_props a b ha ha0 hb hb0
  obtain ⟨hbc0, hbc, hlbc⟩ := gfMul_props b c hb hb0 hc hc0
  rw [gfMul_nf (gfMul a b) c hab hab0 hc hc0, gfMul_nf a (gfMul b c) ha ha0 hbc hbc0,
    hlab, hlbc, Nat.mod_add_mod, Nat.add_mod_mod, Nat.add_assoc]

theorem xor_xor_cancel (a b c : Nat) : (a ^^^ c) ^^^ (b ^^^ c) = a ^^^ b := by
  rw [Nat.xor_assoc, Nat.xor_comm c (b ^^^ c), Nat.xor_assoc, Nat.xor_self,
    Nat.xor_zero]

theorem two_mul_xor (x y : Nat) : 2 * (x ^^^ y) = 2 * x ^^^ 2 * y := by
  have h : ∀ z : Nat, 2 * z = z <<< 1 := by
    intro z
    rw [Nat.shiftLeft_eq]
    omega
  rw [h, h, h]
  apply Nat.eq_of_testBit_eq
  intro i
  simp only [Nat.testBit_shiftLeft, Nat.testBit_xor]
  cases decide (1 ≤ i) <;> simp

/-- Bit 7 reads off the `128 ≤ x` comparison on bytes. -/
theorem high_iff (x : Nat) (h : x < 256) : 128 ≤ x ↔ x.testBit 7 = true := by
  rw [Nat.testBit_to_div_mod]
  have h7 : (2 : Nat) ^ 7 = 128 := rfl
  rw [h7]
  simp only [decide_eq_true_eq]
  omega

set_option maxRecDepth 100000 in
theorem packed_gfStep_lt : ((List.range 256).all fun x => decide (gfStep x < 256)) = true := by rfl

theorem gfStep_lt (x : Nat) (h : x < 256) : gfStep x < 256 := by
  have := allRange packed_gfStep_lt x h
  simpa using this

/-- The doubling step is XOR-linear on bytes. -/
theorem gfStep_xor (x y : Nat) (hx : x < 256) (hy : y < 256) :
    gfStep (x ^^^ y) = gfStep x ^^^ gfStep y := by
  have hxy : x ^^^ y < 256 := Nat.xor_lt_two_pow (n := 8) hx hy
  have hbit : (x ^^^ y).testBit 7 = ((x.testBit 7).xor (y.testBit 7)) := Nat.testBit_xor x y 7
  unfold gfStep
  cases hbx : x.testBit 7 <;> cases hby : y.testBit 7 <;>
    rw [hbx, hby] at hbit
  · have c1 : ¬ 128 ≤ x := fun hc => by simpa [hbx] using (high_iff x hx).mp hc
    have c2 : ¬ 128 ≤ y := fun hc => by simpa [hby] using (high_iff y hy).mp hc
    have c3 : ¬ 128 ≤ x ^^^ y := fun hc => by simpa [hbit] using (high_iff _ hxy).mp hc
    rw [if_neg (by omega), if_neg (by omega), if_neg (by omega), two_mul_xor]
  · have c1 : ¬ 128 ≤ x := fun hc => by simpa [hbx] using (high_iff x hx).mp hc
    have c2 : 128 ≤ y := (high_iff y hy).mpr hby
    have c3 : 128 ≤ x ^^^ y := (high_iff _ hxy).mpr (by simp [hbit])
    rw [if_pos (by omega), if_neg (by omega), if_pos (by omega), two_mul_xor,
      Nat.xor_assoc]
  · have c1 : 128 ≤ x := (high_iff x hx).mpr hbx
    have c2 : ¬ 128 ≤ y := fun hc => by simpa [hby] using (high_iff y hy).mp hc
    have c3 : 128 ≤ x ^^^ y := (high_iff _ hxy).mpr (by simp [hbit])
    rw [if_pos (by omega), if_pos (by omega), if_neg (by omega), two_mul_xor,
      Nat.xor_assoc, Nat.xor_comm (2 * y) 285, ← Nat.xor_assoc]
  · have c1 : 128 ≤ x := (high_iff x hx).mpr hbx
    have c2 : 128 ≤ y := (high_iff y hy).mpr hby
    have c3 : ¬ 128 ≤ x ^^^ y := fun hc => by simpa [hbit] using (high_iff _ hxy).mp hc
    rw [if_neg (by omega), if_pos (by omega), if_pos (by omega), two_mul_xor,
      xor_xor_cancel]

/-- Multiplying by the doubling step is the doubling step of the product. -/
theorem gfMul_gfStep (a x : Nat) (ha : a < 256) (ha0 : a ≠ 0) (hx : x < 256) (hx0 : x ≠ 0) :
    gfMul (gfStep a) x = gfStep (gfMul a x) := by
  obtain ⟨hea, hla⟩ := gfE_gfLg a ha ha0
  obtain ⟨hex, hlx⟩ := gfE_gfLg x hx hx0
  have hm : (gfLg a + 1) % 255 < 255 := Nat.mod_lt _ (by omega)
  have hsa : gfStep a = gfE ((gfLg a + 1) % 255) := by
    conv_lhs => rw [← hea]
    exact (gfE_succ (gfLg a) hla).symm
  obtain ⟨hs0, hslt⟩ := gfE_bounds _ hm
  have hls : gfLg (gfStep a) = (gfLg a + 1) % 255 := by
    rw [hsa]
    exact gfLg_gfE _ hm
  have hprod : (gfLg a + gfLg x) % 255 < 255 := Nat.mod_lt _ (by omega)
  rw [gfMul_nf (gfStep a) x (hsa ▸ hslt) (hsa ▸ hs0) hx hx0, hls,
    gfMul_nf a x ha ha0 hx hx0]
  have h1 : ((gfLg a + 1) % 255 + gfLg x) % 255 = ((gfLg a + gfLg x) % 255 + 1) % 255 := by
    rw [Nat.mod_add_mod, Nat.mod_add_mod]
    congr 1
    omega
  rw [h1]
  exact gfE_succ _ hprod

/-- `gfMul` distributes over XOR (= `gfAdd`) on bytes. -/
theorem gfMul_xor (a b c : Nat) (ha : a < 256) (hb : b < 256) (hc : c < 256) :
    gfMul a (b ^^^ c) = gfMul a b ^^^ gfMul a c := by
  by_cases ha0 : a = 0
  · simp [ha0, gfMul_zero_left]
  by_cases hb0 : b = 0
  · subst hb0
    rw [Nat.zero_xor, gfMul_zero_right, Nat.zero_xor]
  by_cases hc0 : c = 0
  · subst hc0
    rw [Nat.xor_zero, gfMul_zero_right, Nat.xor_zero]
  by_cases hbc : b = c
  · subst hbc
    rw [Nat.xor_self, gfMul_zero_right, Nat.xor_self]
  have key : ∀ i, i < 255 → ∀ b c : Nat, b < 256 → b ≠ 0 → c < 256 → c ≠ 0 → b ≠ c →
      gfMul (gfE i) (b ^^^ c) = gfMul (gfE i) b ^^^ gfMul (gfE i) c := by
    intro i
    induction i with
    | zero =>
      intro _ b c hb hb0 hc hc0 hbc
      have e0 : gfE 0 = 1 := rfl
      have hxor : b ^^^ c < 256 := Nat.xor_lt_two_pow (n := 8) hb hc
      rw [e0, gfMul_comm 1 (b ^^^ c), gfMul_comm 1 b, gfMul_comm 1 c,
        gfMul_one _ hxor, gfMul_one b hb, gfMul_one c hc]
    | succ i ih =>
      intro hi b c hb hb0 hc hc0 hbc
      have hi' : i < 255 := by omega
      have hE : gfE (i + 1) = gfStep (gfE i) := by
        have := gfE_succ i hi'
        rwa [Nat.mod_eq_of_lt hi] at this
      obtain ⟨hEne, hElt⟩ := gfE_bounds i hi'
      have hxor : b ^^^ c < 256 := Nat.xor_lt_two_pow (n := 8) hb hc
      have hxne : b ^^^ c ≠ 0 := fun h => hbc (Nat.xor_eq_zero.mp h)
      obtain ⟨hib0, hib, -⟩ := gfMul_props (gfE i) b hElt hEne hb hb0
      obtain ⟨hic0, hic, -⟩ := gfMul_props (gfE i) c hElt hEne hc hc0
      rw [hE, gfMul_gfStep (gfE i) (b ^^^ c) hElt hEne hxor hxne,
        gfMul_gfStep (gfE i) b hElt hEne hb hb0,
        gfMul_gfStep (gfE i) c hElt hEne hc hc0,
        ih hi' b c hb hb0 hc hc0 hbc,
        gfStep_xor _ _ hib hic]
  obtain ⟨hea, hla⟩ := gfE_gfLg a ha ha0
  have := key (gfLg a) hla b c hb hb0 hc hc0 hbc
  rwa [hea] at this

/-- The table inverse is a true multiplicative inverse on nonzero bytes. -/
theorem gfInverse_mul (a : Nat) (ha : a < 256) (h0 : a ≠ 0) :
    ∃ v, gfInverse a = .ok v ∧ gfMul a v = 1 := by
  obtain ⟨hea, hla⟩ := gfE_gfLg a ha h0
  have hinv : gfInverse a = .ok (gfE (255 - gfLg a)) := by
    rw [gfInverse, if_neg h0, logT_getD a ha, expT_getD _ (by omega)]
  refine ⟨gfE (255 - gfLg a), hinv, ?_⟩
  by_cases hz : gfLg a = 0
  · have ha1 : a = 1 := by
      rw [← hea, hz]
      rfl
    rw [hz, ha1]
    have h255 : gfE (255 - 0) = 1 := by rfl
    rw [h255]
    exact gfMul_one 1 (by omega)
  · have hm : 255 - gfLg a < 255 := by omega
    obtain ⟨hv0, hvlt⟩ := gfE_bounds _ hm
    rw [gfMul_nf a _ ha h0 hvlt hv0, gfLg_gfE _ hm]
    have : (gfLg a + (255 - gfLg a)) % 255 = 0 := by
      have : gfLg a + (255 - gfLg a) = 255 := by omega
      rw [this]
    rw [this]
    rfl

/-- `gfPow a 255 = 1` for nonzero bytes. -/
theorem gfPow_255 (a : Nat) (ha : a < 256) (h0 : a ≠ 0) : gfPow a 255 = 1 := by
  rw [gfPow, if_neg (by omega), if_neg h0, logT_getD a ha, Nat.mul_mod_left,
    expT_getD 0 (by omega)]
  rfl

/-!
### Claim theorems: GF axioms (C8), RS failure modes (C4, C3)
-/

set_option maxRecDepth 1000000 in
/-- C8 counterexample: in this field (primitive polynomial 0x11d),
`gfMul 0x53 0xCA` is `0x8F`, not `0x01`; the `0x53 · 0xCA = 1` vector belongs
to the AES field (0x11b). -/
theorem gfMul_53_CA_ne_one : gfMul 0x53 0xCA = 0x8F ∧ gfMul 0x53 0xCA ≠ 0x01 := by
  constructor
  · rfl
  · intro h
    simpa using h.symm.trans (by rfl : gfMul 0x53 0xCA = 0x8F)

set_option maxRecDepth 1000000 in
/-- C8 (amended): for all bytes, `gfAdd`/`gfMul` are commutative and
associative, `gfMul` distributes over `gfAdd`, `gfAdd a a = 0`,
`gfMul a 1 = a`, nonzero bytes have `gfInverse` as multiplicative inverse and
`gfPow a 255 = 1`; and the concrete product `gfMul 0x53 0xCA` equals `0x8F`. -/
theorem gf_field_axioms :
    (∀ a b c : Nat, a < 256 → b < 256 → c < 256 →
      gfAdd a b = gfAdd b a ∧
      gfAdd (gfAdd a b) c = gfAdd a (gfAdd b c) ∧
      gfMul a b = gfMul b a ∧
      gfMul (gfMul a b) c = gfMul a (gfMul b c) ∧
      gfMul a (gfAdd b c) = gfAdd (gfMul a b) (gfMul a c) ∧
      gfAdd a a = 0 ∧
      gfMul a 1 = a ∧
      (a ≠ 0 → ∃ v, gfInverse a = Except.ok v ∧ gfMul a v = 1) ∧
      (a ≠ 0 → gfPow a 255 = 1)) ∧
    gfMul 0x53 0xCA = 0x8F := by
  refine ⟨?_, by rfl⟩
  intro a b c ha hb hc
  exact ⟨Nat.xor_comm a b, Nat.xor_assoc a b c, gfMul_comm a b,
    gfMul_assoc a b c ha hb hc, gfMul_xor a b c ha hb hc, Nat.xor_self a,
    gfMul_one a ha, fun h0 => gfInverse_mul a ha h0, fun h0 => gfPow_255 a ha h0⟩

/-- C8 witness: the axioms instantiated at `a = 0x53`, `b = 0xCA`, `c = 7`. -/
theorem gf_field_axioms_witness :
    gfMul (gfMul 0x53 0xCA) 7 = gfMul 0x53 (gfMul 0xCA 7) ∧
    gfMul 0x53 (gfAdd 0xCA 7) = gfAdd (gfMul 0x53 0xCA) (gfMul 0x53 7) ∧
    (∃ v, gfInverse 0x53 = Except.ok v ∧ gfMul 0x53 v = 1) := by
  obtain ⟨h, -⟩ := gf_field_axioms
  obtain ⟨-, -, -, hassoc, hdist, -, -, hinv, -⟩ :=
    h 0x53 0xCA 7 (by decide) (by decide) (by decide)
  exact ⟨hassoc, hdist, hinv (by decide)⟩

/-- The erasure scan finds exactly the `null` entries. -/
theorem erasureScan_length (n : Nat) :
    ∀ (xs : List (Option Nat)) (i : Nat),
      (erasureScan n i xs).length = (xs.filter (fun x => x.isNone)).length := by
  intro xs
  induction xs with
  | nil => intro i; rfl
  | cons x t ih =>
    intro i
    match x with
    | none => simp [erasureScan, ih]
    | some v => simp [erasureScan, ih]

/-- C4: with more than `parityCount` erased positions, `rsDecode` returns the
JS `null` (no byte sequence, no throw), regardless of everything else. -/
theorem rsDecode_too_many_erasures (data : List (Option Nat)) (dataLength parityCount : Nat)
    (h : parityCount < (data.filter (fun x => x.isNone)).length) :
    rsDecode data dataLength parityCount = .ok none := by
  have h' : (erasureScan data.length 0 data).length > parityCount := by
    rw [erasureScan_length]
    exact h
  simp [rsDecode, h']

/-- C4 witness: two erasures against one parity symbol. -/
theorem rsDecode_too_many_erasures_witness :
    rsDecode [none, none] 1 1 = .ok none ∧
    1 < (([none, none] : List (Option Nat)).filter (fun x => x.isNone)).length := by
  refine ⟨rsDecode_too_many_erasures [none, none] 1 1 (by decide), by decide⟩

set_option maxRecDepth 1000000 in
/-- C3: the Forney step of `rsDecode` is wrong — the erasure locator is
built from factors `(x + α^p)` (roots at `α^p`) while the evaluation step
assumes `Λ(x) = ∏(1 + α^p x)` (roots at `α^{-p}`). Concretely, the codeword
`rsEncode [1] 1 = [1, 1]` with its first position erased is "corrected" to
`[4]` (= `α² · 1`), not `[1]`. -/
theorem rsDecode_erasure_wrong : rsEncode [1] 1 = [1, 1] ∧
    rsDecode [none, some 1] 1 1 = .ok (some [4]) ∧
    (4 : Nat) ≠ 1 := by
  refine ⟨by rfl, by rfl, by decide⟩

/-!
### Claim theorems: decoder state (C6, C10) and the dropped-frames scenario (C2)
-/



/-- `addFrame` on a fresh state: adopt, then insert iff the index fits. -/
theorem addFrame_fresh (st : DecoderState) (f : AuroraFrame) (h : st.sequenceId = none) :
    addFrame st f =
      if f.frameIndex < f.totalFrames then
        ({ adoptFrame st f with
            collectedFrames := mapSet st.collectedFrames f.frameIndex f }, true)
      else (adoptFrame st f, false) := by
  by_cases hidx : f.frameIndex < f.totalFrames <;>
    simp [addFrame, h, adoptFrame, hidx]

/-- `addFrame` with the current sequence id: insert iff the index fits. -/
theorem addFrame_same (st : DecoderState) (f : AuroraFrame)
    (h : st.sequenceId = some f.sequenceId) :
    addFrame st f =
      if f.frameIndex < st.totalFrames.getD 0 then
        ({ st with collectedFrames := mapSet st.collectedFrames f.frameIndex f }, true)
      else (st, false) := by
  have hn : st.sequenceId ≠ none := by rw [h]; simp
  by_cases hidx : f.frameIndex < st.totalFrames.getD 0 <;>
    simp [addFrame, h, hn, hidx]

/-- `addFrame` with a different sequence id: full reset, adopt, then insert
iff the index fits. -/
theorem addFrame_diff (st : DecoderState) (f : AuroraFrame)
    (h : st.sequenceId ≠ none) (hne : st.sequenceId ≠ some f.sequenceId) :
    addFrame st f =
      if f.frameIndex < f.totalFrames then
        ({ adoptFrame emptyState f with
            collectedFrames := mapSet [] f.frameIndex f }, true)
      else (adoptFrame emptyState f, false) := by
  by_cases hidx : f.frameIndex < f.totalFrames <;>
    simp [addFrame, h, hne, adoptFrame, emptyState, hidx]

/-- After any `addFrame`, the state's sequence id is the added frame's. -/
theorem addFrame_sequenceId (st : DecoderState) (f : AuroraFrame) :
    ((addFrame st f).1).sequenceId = some f.sequenceId := by
  by_cases h1 : st.sequenceId = none
  · rw [addFrame_fresh st f h1]
    split <;> rfl
  · by_cases h2 : st.sequenceId = some f.sequenceId
    · rw [addFrame_same st f h2]
      split <;> simp [h2]
    · rw [addFrame_diff st f h1 h2]
      split <;> rfl

/-- Frames stored in `mapSet m k v` are either `v` or already-stored ones. -/
theorem mapSet_mem (m : List (Nat × AuroraFrame)) (k : Nat) (v : AuroraFrame) :
    ∀ p ∈ mapSet m k v, p.2 = v ∨ p ∈ m := by
  intro p hp
  unfold mapSet at hp
  split at hp
  · obtain ⟨q, hq, he⟩ := List.mem_map.mp hp
    by_cases hk : q.1 == k
    · left
      rw [if_pos hk] at he
      rw [← he]
    · right
      rw [if_neg hk] at he
      rw [← he]
      exact hq
  · rcases List.mem_append.mp hp with h | h
    · right; exact h
    · left
      simp only [List.mem_singleton] at h
      rw [h]

/-- The stored-frames invariant: every stored frame carries the state's
sequence id, and `addFrame` preserves this. -/
theorem addFrame_stored (st : DecoderState) (f : AuroraFrame)
    (h : ∀ p ∈ st.collectedFrames, some p.2.sequenceId = st.sequenceId) :
    ∀ p ∈ ((addFrame st f).1).collectedFrames,
      some p.2.sequenceId = ((addFrame st f).1).sequenceId := by
  intro p hp
  rw [addFrame_sequenceId]
  by_cases h1 : st.sequenceId = none
  · rw [addFrame_fresh st f h1] at hp
    split at hp
    · simp only at hp
      rcases mapSet_mem _ _ _ p hp with he | hm
      · rw [he]
      · have := h p hm
        rw [h1] at this
        simp at this
    · simp only at hp
      have := h p hp
      rw [h1] at this
      simp at this
  · by_cases h2 : st.sequenceId = some f.sequenceId
    · rw [addFrame_same st f h2] at hp
      split at hp
      · simp only at hp
        rcases mapSet_mem _ _ _ p hp with he | hm
        · rw [he]
        · rw [← h2]
          exact h p hm
      · rw [← h2]
        exact h p hp
    · rw [addFrame_diff st f h1 h2] at hp
      split at hp
      · simp only at hp
        rcases mapSet_mem _ _ _ p hp with he | hm
        · rw [he]
        · simp at hm
      · simp [adoptFrame, emptyState] at hp

/-- Folding `addFrame` preserves the stored-frames invariant. -/
theorem foldl_addFrame_stored (fs : List AuroraFrame) :
    ∀ st : DecoderState,
      (∀ p ∈ st.collectedFrames, some p.2.sequenceId = st.sequenceId) →
      ∀ p ∈ (fs.foldl (fun st g => (addFrame st g).1) st).collectedFrames,
        some p.2.sequenceId = (fs.foldl (fun st g => (addFrame st g).1) st).sequenceId := by
  induction fs with
  | nil => intro st h; exact h
  | cons g t ih =>
    intro st h
    exact ih ((addFrame st g).1) (addFrame_stored st g h)

/-- C6: sequence isolation. (1) After any run of `addFrame` calls ending
with frame `f`, the decoder's sequence id is `f`'s and every stored frame
carries that id. (2) The concrete scenario: a frame with
`sequenceId = 0x1234, totalFrames = 5` followed by one with
`sequenceId = 0x9ABC, totalFrames = 8` leaves only the second frame, with
`totalFrames = 8`. -/
theorem decoder_sequence_isolation :
    (∀ (fs : List AuroraFrame) (f : AuroraFrame),
      ((fs ++ [f]).foldl (fun st g => (addFrame st g).1) emptyState).sequenceId =
          some f.sequenceId ∧
      ∀ p ∈ ((fs ++ [f]).foldl (fun st g => (addFrame st g).1) emptyState).collectedFrames,
        p.2.sequenceId = f.sequenceId) ∧
    ((((addFrame (addFrame emptyState ⟨0, 5, 0x1234, List.replicate 10 0, 0⟩).1
          ⟨0, 8, 0x9ABC, List.replicate 10 0, 0⟩).1).totalFrames = some 8 ∧
      ((addFrame (addFrame emptyState ⟨0, 5, 0x1234, List.replicate 10 0, 0⟩).1
          ⟨0, 8, 0x9ABC, List.replicate 10 0, 0⟩).1).collectedFrames =
        [(0, ⟨0, 8, 0x9ABC, List.replicate 10 0, 0⟩)] ∧
      ((addFrame (addFrame emptyState ⟨0, 5, 0x1234, List.replicate 10 0, 0⟩).1
          ⟨0, 8, 0x9ABC, List.replicate 10 0, 0⟩).1).sequenceId = some 0x9ABC)) := by
  constructor
  · intro fs f
    rw [List.foldl_append]
    set st0 := fs.foldl (fun st g => (addFrame st g).1) emptyState with hst0
    have hinv : ∀ p ∈ st0.collectedFrames, some p.2.sequenceId = st0.sequenceId := by
      rw [hst0]
      exact foldl_addFrame_stored fs emptyState (by intro p hp; simp [emptyState] at hp)
    have h1 : ((addFrame st0 f).1).sequenceId = some f.sequenceId :=
      addFrame_sequenceId st0 f
    refine ⟨by simpa using h1, ?_⟩
    intro p hp
    have := addFrame_stored st0 f hinv p (by simpa using hp)
    rw [h1] at this
    exact (Option.some.injEq _ _).mp this.symm |>.symm
  · refine ⟨by decide, by decide, by decide⟩

/-- C10: `addFrame` is not atomic on rejection. A frame whose index is not
below its `totalFrames` is rejected (returns `false`) yet still mutates the
state: on an empty decoder it adopts the frame's sequence id and totals, and
on a decoder keyed to another sequence it also discards all stored frames. -/
theorem addFrame_rejects_but_mutates :
    ((addFrame emptyState ⟨5, 5, 7, List.replicate 10 0, 0⟩).2 = false ∧
      (addFrame emptyState ⟨5, 5, 7, List.replicate 10 0, 0⟩).1.sequenceId = some 7 ∧
      (addFrame emptyState ⟨5, 5, 7, List.replicate 10 0, 0⟩).1.totalFrames = some 5) ∧
    ((addFrame (addFrame emptyState ⟨0, 5, 1, List.replicate 10 0, 0⟩).1
        ⟨9, 5, 2, List.replicate 10 0, 0⟩).2 = false ∧
      ((addFrame emptyState ⟨0, 5, 1, List.replicate 10 0, 0⟩).1.collectedFrames ≠ []) ∧
      (addFrame (addFrame emptyState ⟨0, 5, 1, List.replicate 10 0, 0⟩).1
        ⟨9, 5, 2, List.replicate 10 0, 0⟩).1.sequenceId = some 2 ∧
      (addFrame (addFrame emptyState ⟨0, 5, 1, List.replicate 10 0, 0⟩).1
        ⟨9, 5, 2, List.replicate 10 0, 0⟩).1.collectedFrames = []) := by
  refine ⟨⟨by decide, by decide, by decide⟩, ⟨by decide, by decide, by decide, by decide⟩⟩

set_option maxRecDepth 1000000 in
/-- C2: the concrete spec scenario fails on the code. `encodeData` on
`"Hello Aurora!"` makes `D = 2` data and `P = 4` parity frames, but the
receiver re-derives `required = ⌈6 · 0.8⌉ = 5` from `totalFrames` alone, so
after dropping frames 1 and 3 the remaining 4 frames are below the
threshold and `decode()` fails with an insufficient-frames error instead of
recovering the message. -/
theorem decode_dropTwo_insufficient :
    (encodeData 0x1234 "Hello Aurora!").dataFrames = 2 ∧
    (encodeData 0x1234 "Hello Aurora!").parityFrames = 4 ∧
    (decodeFromFrames
        (((encodeData 0x1234 "Hello Aurora!").frames.eraseIdx 3).eraseIdx 1)).success = false ∧
    (decodeFromFrames
        (((encodeData 0x1234 "Hello Aurora!").frames.eraseIdx 3).eraseIdx 1)).error =
      some (.insufficientFrames 4 5) ∧
    (decodeFromFrames
        (((encodeData 0x1234 "Hello Aurora!").frames.eraseIdx 3).eraseIdx 1)).stats.missingFrames =
      [1, 3] := by
  refine ⟨by rfl, by rfl, by rfl, by rfl, by rfl⟩

set_option maxRecDepth 1000000 in
/-- C1 counterexample: the lossless round trip fails as stated. For the
10-byte string "0123456789" (`D = 1`, `P = 4`, `totalFrames = 5`) the
receiver re-derives `dataFrames = ⌈5 · 0.8⌉ = 4`, so the decoded output
contains three parity rows after the data row; with no NUL padding to trim,
`decode()` "succeeds" with a longer, garbled string. -/
theorem roundTrip_counterexample :
    (decodeFromFrames (encodeData 0 "0123456789").frames).success = true ∧
    (decodeFromFrames (encodeData 0 "0123456789").frames).data ≠ some "0123456789" := by
  refine ⟨by rfl, by decide⟩

/-- Reading a mapped range at an in-range index. -/
theorem getD_map_range {α : Type} (g : Nat → α) (d : α) (n r : Nat) (h : r < n) :
    ((List.range n).map g).getD r d = g r := by
  rw [List.getD_eq_getElem?_getD, List.getElem?_map, List.getElem?_range h]
  rfl

set_option maxRecDepth 1000000 in
/-- C5 (amended): packet shape. For every input and sequence id, with `L`
the UTF-8 byte length, `encodeData` produces `D = ⌈L/10⌉` data frames,
`P = max(4, ⌈D/4⌉)` parity frames, `totalFrames = D + P`, a frames array of
exactly `totalFrames` frames whose `r`-th frame has `frameIndex = r` — and
`totalFrames ≤ 255` holds whenever `L ≤ 2040` (the encoder itself never
checks this bound). Concretely, `encode("A")` has `L = 1`, `D = 1`, `P = 4`,
`totalFrames = 5`, and frame 0 carries `0x41` padded with zeros. -/
theorem encodeData_shape :
    (∀ (q : Nat) (s : String),
      (encodeData q s).dataFrames = ((utf8Encode s).length + 9) / 10 ∧
      (encodeData q s).parityFrames =
        max 4 ((((utf8Encode s).length + 9) / 10 + 3) / 4) ∧
      (encodeData q s).totalFrames =
        (encodeData q s).dataFrames + (encodeData q s).parityFrames ∧
      (encodeData q s).frames.length = (encodeData q s).totalFrames ∧
      (∀ r, r < (encodeData q s).totalFrames →
        ((encodeData q s).frames.getD r ⟨0, 0, 0, [], 0⟩).frameIndex = r) ∧
      ((utf8Encode s).length ≤ 2040 → (encodeData q s).totalFrames ≤ 255)) ∧
    ((encodeData 0 "A").originalDataLength = 1 ∧
      (encodeData 0 "A").dataFrames = 1 ∧ (encodeData 0 "A").parityFrames = 4 ∧
      (encodeData 0 "A").totalFrames = 5 ∧
      ((encodeData 0 "A").frames.getD 0 ⟨0, 0, 0, [], 0⟩).dataChunk =
        [0x41, 0, 0, 0, 0, 0, 0, 0, 0, 0]) := by
  constructor
  · intro q s
    refine ⟨rfl, rfl, rfl, ?_, ?_, ?_⟩
    · simp [encodeData]
    · intro r hr
      have hr' : r < (encodeData q s).totalFrames := hr
      simp only [encodeData] at hr' ⊢
      rw [getD_map_range _ _ _ _ hr']
    · intro hL
      show ((utf8Encode s).length + 9) / 10 +
        max 4 ((((utf8Encode s).length + 9) / 10 + 3) / 4) ≤ 255
      omega
  · refine ⟨by rfl, by rfl, by rfl, by rfl, by rfl⟩

/-- C7: frame-codec round trip. For every frame within the data-model
ranges, `deserializeFrame (serializeFrame f) = f`, and byte 15 of the
serialized form is 0. -/
theorem frame_codec_roundTrip (f : AuroraFrame)
    (hidx : f.frameIndex < 256) (htot1 : 1 ≤ f.totalFrames) (htot : f.totalFrames < 256)
    (hseq : f.sequenceId < 65536) (hcs : f.checksum < 256)
    (hlen : f.dataChunk.length = 10) (hbytes : ∀ x ∈ f.dataChunk, x < 256) :
    deserializeFrame (serializeFrame f) = f ∧ (serializeFrame f).getD 15 0 = 0 := by
  obtain ⟨fi, ft, fs, fd, fc⟩ := f
  simp only at hidx htot1 htot hseq hcs hlen hbytes
  have hmap : ∀ g : Nat → Nat,
      (List.range 10).map g = [g 0, g 1, g 2, g 3, g 4, g 5, g 6, g 7, g 8, g 9] :=
    fun g => rfl
  rcases fd with - | ⟨x0, fd⟩; · simp at hlen
  rcases fd with - | ⟨x1, fd⟩; · simp at hlen
  rcases fd with - | ⟨x2, fd⟩; · simp at hlen
  rcases fd with - | ⟨x3, fd⟩; · simp at hlen
  rcases fd with - | ⟨x4, fd⟩; · simp at hlen
  rcases fd with - | ⟨x5, fd⟩; · simp at hlen
  rcases fd with - | ⟨x6, fd⟩; · simp at hlen
  rcases fd with - | ⟨x7, fd⟩; · simp at hlen
  rcases fd with - | ⟨x8, fd⟩; · simp at hlen
  rcases fd with - | ⟨x9, fd⟩; · simp at hlen
  rcases fd with - | ⟨x10, fd⟩
  case cons.cons.cons.cons.cons.cons.cons.cons.cons.cons.cons => simp at hlen
  have b0 : x0 < 256 := hbytes x0 (by simp)
  have b1 : x1 < 256 := hbytes x1 (by simp)
  have b2 : x2 < 256 := hbytes x2 (by simp)
  have b3 : x3 < 256 := hbytes x3 (by simp)
  have b4 : x4 < 256 := hbytes x4 (by simp)
  have b5 : x5 < 256 := hbytes x5 (by simp)
  have b6 : x6 < 256 := hbytes x6 (by simp)
  have b7 : x7 < 256 := hbytes x7 (by simp)
  have b8 : x8 < 256 := hbytes x8 (by simp)
  have b9 : x9 < 256 := hbytes x9 (by simp)
  constructor
  · simp only [serializeFrame, deserializeFrame, hmap]
    simp only [AuroraFrame.mk.injEq]
    refine ⟨?_, ?_, ?_, ?_, ?_⟩
    · show fi % 256 = fi
      omega
    · show ft % 256 = ft
      omega
    · show (fs / 256 % 256) * 256 + fs % 256 = fs
      omega
    · show [x0 % 256, x1 % 256, x2 % 256, x3 % 256, x4 % 256, x5 % 256, x6 % 256,
          x7 % 256, x8 % 256, x9 % 256] = [x0, x1, x2, x3, x4, x5, x6, x7, x8, x9]
      simp only [List.cons.injEq, and_true]
      refine ⟨?_, ?_, ?_, ?_, ?_, ?_, ?_, ?_, ?_, ?_⟩ <;> omega
    · show fc % 256 = fc
      omega
  · rfl

/-- C7 witness: a concrete in-range frame round-trips and serializes with a
zero reserved byte. -/
theorem frame_codec_roundTrip_witness :
    deserializeFrame (serializeFrame ⟨3, 9, 0xBEEF, [1, 2, 3, 4, 5, 6, 7, 8, 9, 10], 0x55⟩) =
        ⟨3, 9, 0xBEEF, [1, 2, 3, 4, 5, 6, 7, 8, 9, 10], 0x55⟩ ∧
      (serializeFrame ⟨3, 9, 0xBEEF, [1, 2, 3, 4, 5, 6, 7, 8, 9, 10], 0x55⟩).getD 15 0 = 0 := by
  exact frame_codec_roundTrip ⟨3, 9, 0xBEEF, [1, 2, 3, 4, 5, 6, 7, 8, 9, 10], 0x55⟩
    (by decide) (by decide) (by decide) (by decide) (by decide) (by decide)
    (by intro x hx; fin_cases hx <;> decide)

/-- C5 counterexample: a 2041-byte input overflows the 8-bit frame budget,
`totalFrames = 257 > 255`, and `encodeData` does not reject it. -/
theorem encodeData_overflow_cex :
    (encodeData 0 (String.mk (List.replicate 2041 'A'))).totalFrames = 257 ∧
    ¬ ((encodeData 0 (String.mk (List.replicate 2041 'A'))).totalFrames ≤ 255) := by
  have hflat : ∀ n : Nat, ((List.replicate n 'A').flatMap utf8EncChar).length = n := by
    intro n
    induction n with
    | zero => rfl
    | succ n ih =>
      rw [List.replicate_succ, List.flatMap_cons, List.length_append, ih]
      rw [show (utf8EncChar 'A').length = 1 from rfl]
      omega
  have hlen : (utf8Encode (String.mk (List.replicate 2041 'A'))).length = 2041 :=
    hflat 2041
  obtain ⟨h, -⟩ := encodeData_shape
  obtain ⟨hD, hP, hT, -⟩ := h 0 (String.mk (List.replicate 2041 'A'))
  rw [hT, hD, hP, hlen]
  norm_num

set_option maxRecDepth 1000000 in
/-- C5 witness: the shape theorem instantiated at `encode("A")`. -/
theorem encodeData_shape_witness :
    ((encodeData 0 "A").frames.getD 0 ⟨0, 0, 0, [], 0⟩).frameIndex = 0 ∧
    (encodeData 0 "A").totalFrames ≤ 255 := by
  obtain ⟨h, -⟩ := encodeData_shape
  obtain ⟨-, -, -, -, hidx, hbound⟩ := h 0 "A"
  exact ⟨hidx 0 (by decide), hbound (by decide)⟩

/-- C6 witness: the isolation theorem instantiated at the two-frame run. -/
theorem decoder_sequence_isolation_witness :
    (([(⟨0, 5, 0x1234, List.replicate 10 0, 0⟩ : AuroraFrame)] ++
        [(⟨0, 8, 0x9ABC, List.replicate 10 0, 0⟩ : AuroraFrame)]).foldl
          (fun st g => (addFrame st g).1) emptyState).sequenceId = some 0x9ABC ∧
    ((0, (⟨0, 8, 0x9ABC, List.replicate 10 0, 0⟩ : AuroraFrame)) :
        Nat × AuroraFrame).2.sequenceId = 0x9ABC := by
  obtain ⟨h, -⟩ := decoder_sequence_isolation
  obtain ⟨hseq, hall⟩ := h [⟨0, 5, 0x1234, List.replicate 10 0, 0⟩]
    ⟨0, 8, 0x9ABC, List.replicate 10 0, 0⟩
  exact ⟨hseq, hall (0, ⟨0, 8, 0x9ABC, List.replicate 10 0, 0⟩) (by decide)⟩


/-- One decode step never grows the unconsumed suffix. -/
theorem utf8DecodeStep_len (b : Nat) (bs : List Nat) :
    (utf8DecodeStep b bs).2.length ≤ bs.length := by
  unfold utf8DecodeStep
  repeat' split
  all_goals simp_all
  all_goals omega

/-- Decoding the empty byte list gives no characters, whatever the fuel. -/
theorem utf8DecodeAux_nil : ∀ f, utf8DecodeAux f [] = [] := by
  intro f
  cases f <;> rfl

/-- Any fuel of at least the input length decodes the same. -/
theorem utf8DecodeAux_fuel :
    ∀ (f1 : Nat) (bs : List Nat) (f2 : Nat), bs.length ≤ f1 → bs.length ≤ f2 →
      utf8DecodeAux f1 bs = utf8DecodeAux f2 bs := by
  intro f1
  induction f1 with
  | zero =>
    intro bs f2 h1 _
    have : bs = [] := List.length_eq_zero.mp (Nat.le_zero.mp h1)
    subst this
    cases f2 <;> rfl
  | succ f1 ih =>
    intro bs f2 h1 h2
    match bs, f2 with
    | [], f2 => rw [utf8DecodeAux_nil, utf8DecodeAux_nil]
    | b :: bs', f2' + 1 =>
      simp only [utf8DecodeAux]
      have hlen : (utf8DecodeStep b bs').2.length ≤ bs'.length := utf8DecodeStep_len b bs'
      have hb1 : bs'.length ≤ f1 := by simpa using h1
      have hb2 : bs'.length ≤ f2' := by simpa using h2
      rw [ih (utf8DecodeStep b bs').2 f2' (by omega) (by omega)]

/-- Decoding a 1-byte (ASCII) scalar. -/
theorem utf8DecodeStep_enc1 (v : Nat) (h : v < 0x80) (tail : List Nat) :
    utf8DecodeStep v tail = (Char.ofNat v, tail) := by
  unfold utf8DecodeStep
  rw [if_pos h]

/-- Decoding a 2-byte scalar. -/
theorem utf8DecodeStep_enc2 (v : Nat) (h1 : 0x80 ≤ v) (h2 : v < 0x800) (tail : List Nat) :
    utf8DecodeStep (0xC0 + v / 64) ((0x80 + v % 64) :: tail) = (Char.ofNat v, tail) := by
  have c1 : ¬ (0xC0 + v / 64 < 0x80) := by omega
  have c2 : ¬ (0xC0 + v / 64 < 0xC2) := by omega
  have c3 : 0xC0 + v / 64 < 0xE0 := by omega
  have c4 : 0x80 ≤ 0x80 + v % 64 ∧ 0x80 + v % 64 < 0xC0 := by omega
  have e : (0xC0 + v / 64 - 0xC0) * 64 + (0x80 + v % 64 - 0x80) = v := by omega
  simp only [utf8DecodeStep, if_neg c1, if_neg c2, if_pos c3, if_pos c4, e]

/-- Decoding a 3-byte scalar (surrogates excluded). -/
theorem utf8DecodeStep_enc3 (v : Nat) (h1 : 0x800 ≤ v) (h2 : v < 0x10000)
    (hs : v < 0xD800 ∨ 0xE000 ≤ v) (tail : List Nat) :
    utf8DecodeStep (0xE0 + v / 4096) ((0x80 + v / 64 % 64) :: (0x80 + v % 64) :: tail) =
      (Char.ofNat v, tail) := by
  have c1 : ¬ (0xE0 + v / 4096 < 0x80) := by omega
  have c2 : ¬ (0xE0 + v / 4096 < 0xC2) := by omega
  have c3 : ¬ (0xE0 + v / 4096 < 0xE0) := by omega
  have c4 : 0xE0 + v / 4096 < 0xF0 := by omega
  have c5 : ((if 0xE0 + v / 4096 = 0xE0 then 0xA0 else 0x80) ≤ 0x80 + v / 64 % 64 ∧
      0x80 + v / 64 % 64 ≤ (if 0xE0 + v / 4096 = 0xED then 0x9F else 0xBF)) := by
    constructor
    · split <;> omega
    · split <;> omega
  have c6 : 0x80 ≤ 0x80 + v % 64 ∧ 0x80 + v % 64 < 0xC0 := by omega
  have e : (0xE0 + v / 4096 - 0xE0) * 4096 + (0x80 + v / 64 % 64 - 0x80) * 64 +
      (0x80 + v % 64 - 0x80) = v := by omega
  simp only [utf8DecodeStep, if_neg c1, if_neg c2, if_neg c3, if_pos c4, if_pos c5,
    if_pos c6, e]

/-- Decoding a 4-byte scalar. -/
theorem utf8DecodeStep_enc4 (v : Nat) (h1 : 0x10000 ≤ v) (h2 : v < 0x110000) (tail : List Nat) :
    utf8DecodeStep (0xF0 + v / 262144)
        ((0x80 + v / 4096 % 64) :: (0x80 + v / 64 % 64) :: (0x80 + v % 64) :: tail) =
      (Char.ofNat v, tail) := by
  have c1 : ¬ (0xF0 + v / 262144 < 0x80) := by omega
  have c2 : ¬ (0xF0 + v / 262144 < 0xC2) := by omega
  have c3 : ¬ (0xF0 + v / 262144 < 0xE0) := by omega
  have c4 : ¬ (0xF0 + v / 262144 < 0xF0) := by omega
  have c5 : 0xF0 + v / 262144 < 0xF5 := by omega
  have c6 : ((if 0xF0 + v / 262144 = 0xF0 then 0x90 else 0x80) ≤ 0x80 + v / 4096 % 64 ∧
      0x80 + v / 4096 % 64 ≤ (if 0xF0 + v / 262144 = 0xF4 then 0x8F else 0xBF)) := by
    constructor
    · split <;> omega
    · split <;> omega
  have c7 : 0x80 ≤ 0x80 + v / 64 % 64 ∧ 0x80 + v / 64 % 64 < 0xC0 := by omega
  have c8 : 0x80 ≤ 0x80 + v % 64 ∧ 0x80 + v % 64 < 0xC0 := by omega
  have e : (0xF0 + v / 262144 - 0xF0) * 262144 + (0x80 + v / 4096 % 64 - 0x80) * 4096 +
      (0x80 + v / 64 % 64 - 0x80) * 64 + (0x80 + v % 64 - 0x80) = v := by omega
  simp only [utf8DecodeStep, if_neg c1, if_neg c2, if_neg c3, if_neg c4, if_pos c5,
    if_pos c6, if_pos c7, if_pos c8, e]

/-- Decoding consumes one encoded scalar exactly. -/
theorem utf8Decode_cons (c : Char) (tail : List Nat) :
    utf8Decode (utf8EncChar c ++ tail) = c :: utf8Decode tail := by
  have hv : c.toNat < 0xD800 ∨ (0xE000 ≤ c.toNat ∧ c.toNat < 0x110000) := c.valid
  have hofNat : Char.ofNat c.toNat = c := Char.ofNat_toNat c
  by_cases h1 : c.toNat < 0x80
  · have he : utf8EncChar c = [c.toNat] := by
      simp only [utf8EncChar]
      rw [if_pos h1]
    rw [he]
    show utf8DecodeAux (c.toNat :: tail).length (c.toNat :: tail) = c :: utf8Decode tail
    rw [List.length_cons]
    simp only [utf8DecodeAux, utf8DecodeStep_enc1 c.toNat h1 tail, hofNat]
    rw [utf8Decode]
  · by_cases h2 : c.toNat < 0x800
    · have he : utf8EncChar c = [0xC0 + c.toNat / 64, 0x80 + c.toNat % 64] := by
        simp only [utf8EncChar]
        rw [if_neg h1, if_pos h2]
      rw [he]
      show utf8DecodeAux ((0xC0 + c.toNat / 64) :: (0x80 + c.toNat % 64) :: tail).length _ =
        c :: utf8Decode tail
      rw [List.length_cons, List.length_cons]
      simp only [List.append_eq, List.cons_append, List.nil_append, utf8DecodeAux,
        utf8DecodeStep_enc2 c.toNat (by omega) h2 tail, hofNat]
      rw [utf8DecodeAux_fuel (tail.length + 1) tail tail.length (by omega) (by omega),
        utf8Decode]
    · by_cases h3 : c.toNat < 0x10000
      · have he : utf8EncChar c =
            [0xE0 + c.toNat / 4096, 0x80 + c.toNat / 64 % 64, 0x80 + c.toNat % 64] := by
          simp only [utf8EncChar]
          rw [if_neg h1, if_neg h2, if_pos h3]
        rw [he]
        show utf8DecodeAux ((0xE0 + c.toNat / 4096) :: (0x80 + c.toNat / 64 % 64) ::
            (0x80 + c.toNat % 64) :: tail).length _ = c :: utf8Decode tail
        rw [List.length_cons, List.length_cons, List.length_cons]
        simp only [List.append_eq, List.cons_append, List.nil_append, utf8DecodeAux,
          utf8DecodeStep_enc3 c.toNat (by omega) h3 (by omega) tail, hofNat]
        rw [utf8DecodeAux_fuel (tail.length + 2) tail tail.length (by omega) (by omega),
          utf8Decode]
      · have he : utf8EncChar c =
            [0xF0 + c.toNat / 262144, 0x80 + c.toNat / 4096 % 64,
              0x80 + c.toNat / 64 % 64, 0x80 + c.toNat % 64] := by
          simp only [utf8EncChar]
          rw [if_neg h1, if_neg h2, if_neg h3]
        rw [he]
        show utf8DecodeAux ((0xF0 + c.toNat / 262144) :: (0x80 + c.toNat / 4096 % 64) ::
            (0x80 + c.toNat / 64 % 64) :: (0x80 + c.toNat % 64) :: tail).length _ =
          c :: utf8Decode tail
        rw [List.length_cons, List.length_cons, List.length_cons, List.length_cons]
        simp only [List.append_eq, List.cons_append, List.nil_append, utf8DecodeAux,
          utf8DecodeStep_enc4 c.toNat (by omega) (by omega) tail, hofNat]
        rw [utf8DecodeAux_fuel (tail.length + 3) tail tail.length (by omega) (by omega),
          utf8Decode]

/-- Decoding an encoded character list consumes it exactly. -/
theorem utf8Decode_flatMap (cs : List Char) (tail : List Nat) :
    utf8Decode (cs.flatMap utf8EncChar ++ tail) = cs ++ utf8Decode tail := by
  induction cs with
  | nil => rfl
  | cons c cs ih =>
    rw [List.flatMap_cons, List.append_assoc, utf8Decode_cons, ih, List.cons_append]

/-- Every UTF-8 byte an encoded character produces is below 256. -/
theorem utf8EncChar_lt (c : Char) : ∀ x ∈ utf8EncChar c, x < 256 := by
  have hv : c.toNat < 0xD800 ∨ (0xE000 ≤ c.toNat ∧ c.toNat < 0x110000) := c.valid
  intro x hx
  simp only [utf8EncChar] at hx
  split at hx
  · simp only [List.mem_singleton] at hx
    omega
  · split at hx
    · simp only [List.mem_cons, List.not_mem_nil, or_false] at hx
      rcases hx with h | h <;> omega
    · split at hx
      · simp only [List.mem_cons, List.not_mem_nil, or_false] at hx
        rcases hx with h | h | h <;> omega
      · simp only [List.mem_cons, List.not_mem_nil, or_false] at hx
        rcases hx with h | h | h | h <;> omega

/-- Every byte of a UTF-8 encoded string is below 256. -/
theorem utf8Encode_lt (s : String) : ∀ x ∈ utf8Encode s, x < 256 := by
  intro x hx
  rw [utf8Encode] at hx
  obtain ⟨c, -, hc⟩ := List.mem_flatMap.mp hx
  exact utf8EncChar_lt c x hc

/-- A NUL character in the string forces a 0x00 byte in the encoding. -/
theorem nul_mem_utf8Encode (s : String) (h : Char.ofNat 0 ∈ s.data) :
    0 ∈ utf8Encode s := by
  rw [utf8Encode]
  refine List.mem_flatMap.mpr ⟨Char.ofNat 0, h, ?_⟩
  decide

/-- `takeWhile` of a list whose members all satisfy the predicate, followed
by a failing element, is that list. -/
theorem takeWhile_append_stop (p : Char → Bool) (l r : List Char) (a : Char)
    (hl : ∀ x ∈ l, p x = true) (ha : p a = false) :
    (l ++ a :: r).takeWhile p = l := by
  induction l with
  | nil => simp [List.takeWhile, ha]
  | cons x t ih =>
    rw [List.cons_append, List.takeWhile_cons, hl x (List.mem_cons_self x t)]
    rw [ih (fun y hy => hl y (List.mem_cons_of_mem x hy))]
    simp

/-- `Map.set` with a fresh key appends. -/
theorem mapSet_append (m : List (Nat × AuroraFrame)) (k : Nat) (v : AuroraFrame)
    (h : ∀ p ∈ m, p.1 ≠ k) : mapSet m k v = m ++ [(k, v)] := by
  unfold mapSet
  have hf : m.find? (fun p => p.1 == k) = none := by
    rw [List.find?_eq_none]
    intro x hx
    simpa using h x hx
  rw [hf]
  rfl

/-- Folding in-range frames with fresh, in-range indices onto an active
state stores them in order and changes nothing else. -/
theorem foldl_addFrame_indices (q t : Nat) (F : Nat → AuroraFrame)
    (hFseq : ∀ r, (F r).sequenceId = q) (hFidx : ∀ r, (F r).frameIndex = r) :
    ∀ (rs : List Nat) (st : DecoderState),
      st.sequenceId = some q → st.totalFrames = some t →
      (∀ r ∈ rs, r < t) →
      (∀ r ∈ rs, ∀ p ∈ st.collectedFrames, p.1 ≠ r) →
      rs.Nodup →
      (rs.map F).foldl (fun st g => (addFrame st g).1) st =
        { st with collectedFrames :=
            st.collectedFrames ++ rs.map (fun r => (r, F r)) } := by
  intro rs
  induction rs with
  | nil =>
    intro st _ _ _ _ _
    simp
  | cons r rs ih =>
    intro st hseq htot hlt hfresh hnd
    rw [List.map_cons, List.foldl_cons]
    have hadd := addFrame_same st (F r) (by rw [hseq, hFseq r])
    have hidx : (F r).frameIndex < st.totalFrames.getD 0 := by
      rw [hFidx r, htot]
      exact hlt r (List.mem_cons_self r rs)
    rw [if_pos hidx] at hadd
    rw [hadd]
    have hms : mapSet st.collectedFrames (F r).frameIndex (F r) =
        st.collectedFrames ++ [(r, F r)] := by
      rw [hFidx r]
      exact mapSet_append _ _ _ (fun p hp => hfresh r (List.mem_cons_self r rs) p hp)
    rw [hms]
    have := ih { st with collectedFrames := st.collectedFrames ++ [(r, F r)] }
      (by simpa using hseq) (by simpa using htot)
      (fun r' hr' => hlt r' (List.mem_cons_of_mem r hr'))
      (fun r' hr' p hp => by
        simp only [List.mem_append, List.mem_singleton] at hp
        rcases hp with hp | hp
        · exact hfresh r' (List.mem_cons_of_mem r hr') p hp
        · subst hp
          show r ≠ r'
          intro he
          rw [← he] at hr'
          exact (List.nodup_cons.mp hnd).1 hr'
        )
      (List.nodup_cons.mp hnd).2
    rw [this]
    simp

/-- The decoder state after feeding all `t ≥ 1` frames of one packet into a
fresh decoder, in index order. -/
theorem foldl_addFrame_full (q t : Nat) (F : Nat → AuroraFrame)
    (hFseq : ∀ r, (F r).sequenceId = q) (hFidx : ∀ r, (F r).frameIndex = r)
    (hFtot : ∀ r, (F r).totalFrames = t) (ht : 1 ≤ t) :
    ((List.range t).map F).foldl (fun st g => (addFrame st g).1) emptyState =
      { sequenceId := some q, totalFrames := some t,
        dataFrames := some (ceilMul08 t),
        parityFrames := some (t - ceilMul08 t),
        collectedFrames := (List.range t).map (fun r => (r, F r)),
        originalDataLength := none } := by
  obtain ⟨t', rfl⟩ : ∃ t', t = t' + 1 := ⟨t - 1, by omega⟩
  rw [List.range_succ_eq_map, List.map_cons, List.foldl_cons]
  have h1 := addFrame_fresh emptyState (F 0) rfl
  rw [if_pos (by rw [hFidx 0, hFtot 0]; omega)] at h1
  rw [h1]
  have hms : mapSet emptyState.collectedFrames (F 0).frameIndex (F 0) = [(0, F 0)] := by
    rw [hFidx 0]
    rfl
  have hstep := foldl_addFrame_indices q (t' + 1) F hFseq hFidx
    ((List.range t').map Nat.succ)
    { adoptFrame emptyState (F 0) with
        collectedFrames := mapSet emptyState.collectedFrames (F 0).frameIndex (F 0) }
    (by simp [adoptFrame, hFseq 0]) (by simp [adoptFrame, hFtot 0])
    (by
      intro r hr
      obtain ⟨i, hi, rfl⟩ := List.mem_map.mp hr
      have := List.mem_range.mp hi
      omega)
    (by
      intro r hr p hp
      rw [hms] at hp
      simp only [List.mem_singleton] at hp
      subst hp
      obtain ⟨i, hi, rfl⟩ := List.mem_map.mp hr
      show (0 : Nat) ≠ i.succ
      omega)
    ((List.nodup_range t').map Nat.succ_injective)
  refine Eq.trans hstep ?_
  rw [hms]
  simp only [List.range_succ_eq_map, List.map_cons, List.map_map]
  simp [adoptFrame, emptyState, hFseq 0, hFtot 0]

/-- Looking up any stored index in the in-order frames map. -/
theorem mapGet_range_map (F : Nat → AuroraFrame) :
    ∀ (n k : Nat), k < n →
      mapGet ((List.range n).map (fun r => (r, F r))) k = some (F k) := by
  have haux : ∀ (l : List Nat) (k : Nat), k ∈ l →
      mapGet (l.map (fun r => (r, F r))) k = some (F k) := by
    intro l
    induction l with
    | nil => intro k hk; simp at hk
    | cons x t ih =>
      intro k hk
      rw [List.map_cons]
      unfold mapGet
      rw [List.find?_cons]
      by_cases hxk : x = k
      · subst hxk
        simp
      · have : ((x, F x).1 == k) = false := by simpa using hxk
        rw [this]
        have hkt : k ∈ t := by
          cases List.mem_cons.mp hk with
          | inl h => exact absurd h.symm hxk
          | inr h => exact h
        exact ih k hkt
  intro n k hk
  exact haux (List.range n) k (List.mem_range.mpr hk)

/-- `erasureScan` finds nothing when every entry is present. -/
theorem erasureScan_all_some (n : Nat) :
    ∀ (xs : List (Option Nat)) (i : Nat), (∀ x ∈ xs, x ≠ none) →
      erasureScan n i xs = [] := by
  intro xs
  induction xs with
  | nil => intro i _; rfl
  | cons x t ih =>
    intro i h
    unfold erasureScan
    rw [if_neg (h x (List.mem_cons_self x t))]
    exact ih (i + 1) (fun y hy => h y (List.mem_cons_of_mem x hy))

/-- `rsDecode` on a fully present column returns the first `dataLength`
entries verbatim (mod 256). -/
theorem rsDecode_no_erasures (v : Nat → Nat) (n dl pc : Nat) (hdl : dl ≤ n) :
    rsDecode ((List.range n).map (fun r => some (v r))) dl pc =
      .ok (some ((List.range dl).map (fun i => v i % 256))) := by
  have hlen : ((List.range n).map (fun r => some (v r))).length = n := by simp
  have hscan : erasureScan ((List.range n).map (fun r => some (v r))).length 0
      ((List.range n).map (fun r => some (v r))) = [] := by
    apply erasureScan_all_some
    intro x hx
    obtain ⟨r, -, hr⟩ := List.mem_map.mp hx
    rw [← hr]
    simp
  simp only [rsDecode, hscan, List.length_nil, gt_iff_lt, Nat.not_lt_zero, if_false, if_pos rfl, if_true]
  congr 1
  congr 1
  apply List.map_congr_left
  intro i hi
  have hin : i < n := lt_of_lt_of_le (List.mem_range.mp hi) hdl
  have h1 : n - 1 - i < n := by omega
  rw [hlen, getD_map_range _ _ n (n - 1 - i) h1]
  have h2 : n - 1 - (n - 1 - i) = i := by omega
  rw [h2, getD_map_range _ _ n i hin]
  rfl

/-- The systematic prefix of `rsEncode`: entry `r` of the codeword equals
entry `r` of the data, reduced mod 256, whenever `r` is a data position. -/
theorem rsEncode_getD_lt (data : List Nat) (pc r : Nat) (h : r < data.length) :
    (rsEncode data pc).getD r 0 = data.getD r 0 % 256 := by
  have hm : r < (data.map (· % 256)).length := by simpa using h
  simp only [rsEncode]
  rw [List.getD_append _ _ _ _ hm]
  rw [List.getD_eq_getElem?_getD, List.getElem?_map, List.getElem?_eq_getElem h]
  rw [List.getD_eq_getElem?_getD, List.getElem?_eq_getElem h]
  rfl

/-- Bind on an `Except.ok` head. -/
theorem except_pure_bind {e a b : Type} (x : a) (f : a → Except e b) :
    (pure x : Except e a) >>= f = f x := rfl

/-- The column fold of `decodeColumns`, generalized over the byte-position
list and the accumulated columns, when every frame index below `t` is
stored. -/
theorem decodeColumns_foldlM_aux (st : DecoderState) (t d p : Nat)
    (F : Nat → AuroraFrame)
    (hmap : ∀ k, k < t → mapGet st.collectedFrames k = some (F k)) (hdt : d ≤ t) :
    ∀ (bs : List Nat) (cols : List (List Nat)),
      bs.foldlM (colStep st t d p) (Except.ok cols) =
      Except.ok (Except.ok (cols ++ bs.map
        (fun b => (List.range d).map (fun i => (F i).dataChunk.getD b 0 % 256)))) := by
  intro bs
  induction bs with
  | nil => intro cols; simp [List.foldlM_nil]; rfl
  | cons b bs ih =>
    intro cols
    rw [List.foldlM_cons]
    have hrs : rsDecode ((List.range t).map
        (fun frameIdx => (mapGet st.collectedFrames frameIdx).map
          (fun fr => fr.dataChunk.getD b 0))) d p =
        .ok (some ((List.range d).map (fun i => (F i).dataChunk.getD b 0 % 256))) := by
      have hcol : (List.range t).map
          (fun frameIdx => (mapGet st.collectedFrames frameIdx).map
            (fun fr => fr.dataChunk.getD b 0)) =
          (List.range t).map (fun r => some ((F r).dataChunk.getD b 0)) := by
        apply List.map_congr_left
        intro r hr
        rw [hmap r (List.mem_range.mp hr)]
        rfl
      rw [hcol]
      exact rsDecode_no_erasures (fun r => (F r).dataChunk.getD b 0) t d p hdt
    have hstep : colStep st t d p (Except.ok cols) b =
        pure (Except.ok (cols ++
          [(List.range d).map (fun i => (F i).dataChunk.getD b 0 % 256)])) := by
      show rsDecode ((List.range t).map
          (fun frameIdx => (mapGet st.collectedFrames frameIdx).map
            (fun fr => fr.dataChunk.getD b 0))) d p >>=
          (fun x => match x with
            | none => pure (Except.error b)
            | some dec => pure (Except.ok (cols ++ [dec]))) = _
      rw [hrs]
      rfl
    rw [hstep, except_pure_bind]
    show List.foldlM (colStep st t d p)
      (Except.ok (cols ++ [(List.range d).map (fun i => (F i).dataChunk.getD b 0 % 256)])) bs = _
    rw [ih (cols ++ [(List.range d).map (fun i => (F i).dataChunk.getD b 0 % 256)])]
    rw [List.map_cons, List.append_assoc]
    rfl

/-- `decodeColumns` on a fully collected sequence returns the ten decoded
columns, each the first `d` stored bytes of that column mod 256. -/
theorem decodeColumns_ok (st : DecoderState) (t d p : Nat) (F : Nat → AuroraFrame)
    (hmap : ∀ k, k < t → mapGet st.collectedFrames k = some (F k)) (hdt : d ≤ t) :
    decodeColumns st t d p = .ok (.ok ((List.range 10).map
      (fun b => (List.range d).map (fun i => (F i).dataChunk.getD b 0 % 256)))) := by
  have h := decodeColumns_foldlM_aux st t d p F hmap hdt (List.range 10) []
  rw [List.nil_append] at h
  exact h

/-- A range-map whose generator agrees with `l` then hits a 0 splits as `l`
followed by a 0. -/
theorem range_map_prefix (l : List Nat) :
    ∀ (n : Nat) (g : Nat → Nat), l.length < n →
      (∀ i, i < l.length → g i = l.getD i 0) → g l.length = 0 →
      ∃ rest, (List.range n).map g = l ++ 0 :: rest := by
  induction l with
  | nil =>
    intro n g hn hg h0
    obtain ⟨m, rfl⟩ : ∃ m, n = m + 1 := ⟨n - 1, by omega⟩
    refine ⟨(List.range m).map (fun j => g (j + 1)), ?_⟩
    rw [List.range_succ_eq_map, List.map_cons, List.map_map]
    simp only [List.length_nil] at h0
    rw [h0, List.nil_append]
    rfl
  | cons a l ih =>
    intro n g hn hg h0
    obtain ⟨m, rfl⟩ : ∃ m, n = m + 1 := ⟨n - 1, by omega⟩
    have hlm : l.length < m := by
      simp only [List.length_cons] at hn
      omega
    obtain ⟨rest, hr⟩ := ih m (fun j => g (j + 1)) hlm
      (fun i hi => by
        have := hg (i + 1) (by simp only [List.length_cons]; omega)
        simpa using this)
      (by
        have := h0
        simp only [List.length_cons] at this
        simpa using this)
    refine ⟨rest, ?_⟩
    rw [List.range_succ_eq_map, List.map_cons, List.map_map]
    have ha : g 0 = a := by simpa using hg 0 (by simp)
    have hr2 : (List.range m).map (g ∘ Nat.succ) = l ++ 0 :: rest := hr
    rw [ha, List.cons_append, hr2]

/-- Trimming the decode of an encoded string followed by a NUL byte
recovers the string, provided the encoding itself is NUL-free. -/
theorem utf8DecodeTrim_eq (s : String) (rest : List Nat)
    (hnz : (0 : Nat) ∉ utf8Encode s) :
    utf8DecodeTrim (utf8Encode s ++ 0 :: rest) = s := by
  have hdec : utf8Decode (utf8Encode s ++ 0 :: rest)
      = s.data ++ Char.ofNat 0 :: utf8Decode rest := by
    have h0 : utf8EncChar (Char.ofNat 0) ++ rest = 0 :: rest := rfl
    have h1 : utf8Encode s ++ 0 :: rest
        = s.data.flatMap utf8EncChar ++ (utf8EncChar (Char.ofNat 0) ++ rest) := by
      rw [h0]; rfl
    rw [h1, utf8Decode_flatMap, utf8Decode_cons]
  have hmem : ∀ c ∈ s.data, (c != Char.ofNat 0) = true := by
    intro c hc
    by_cases h : c = Char.ofNat 0
    · exact absurd (nul_mem_utf8Encode s (h ▸ hc)) hnz
    · simp [h]
  have hcontains : (s.data ++ Char.ofNat 0 :: utf8Decode rest).contains
      (Char.ofNat 0) = true := by
    simp
  simp only [utf8DecodeTrim, hdec, hcontains, if_true]
  rw [takeWhile_append_stop _ _ _ _ hmem (by simp)]

/-- Decoding a fully collected, correctly indexed sequence whose re-derived
data rows spell the UTF-8 encoding of `s` followed by a NUL byte succeeds
and returns `s`. -/
theorem decode_full (q t : Nat) (F : Nat → AuroraFrame) (s : String)
    (hFseq : ∀ r, (F r).sequenceId = q) (hFidx : ∀ r, (F r).frameIndex = r)
    (hFtot : ∀ r, (F r).totalFrames = t) (ht : 1 ≤ t)
    (hnz : (0 : Nat) ∉ utf8Encode s)
    (hdata : ∃ rest, (List.range (ceilMul08 t * 10)).map
        (fun idx => (F (idx / 10)).dataChunk.getD (idx % 10) 0 % 256)
      = utf8Encode s ++ 0 :: rest) :
    (decodeFromFrames ((List.range t).map F)).success = true ∧
    (decodeFromFrames ((List.range t).map F)).data = some s := by
  obtain ⟨rest, hdata⟩ := hdata
  have hst := foldl_addFrame_full q t F hFseq hFidx hFtot ht
  have hmap : ∀ k, k < t → mapGet ((List.range t).map (fun r => (r, F r))) k = some (F k) :=
    fun k hk => mapGet_range_map F t k hk
  have hdt : ceilMul08 t ≤ t := by unfold ceilMul08; omega
  have hdc := decodeColumns_ok
    { sequenceId := some q, totalFrames := some t, dataFrames := some (ceilMul08 t),
      parityFrames := some (t - ceilMul08 t),
      collectedFrames := (List.range t).map (fun r => (r, F r)),
      originalDataLength := none }
    t (ceilMul08 t) (t - ceilMul08 t) F hmap hdt
  have hdd : (List.range (ceilMul08 t * 10)).map (fun idx =>
      ((((List.range 10).map (fun b => (List.range (ceilMul08 t)).map
        (fun i => (F i).dataChunk.getD b 0 % 256))).getD (idx % 10) []).getD (idx / 10) 0))
      = utf8Encode s ++ 0 :: rest := by
    rw [← hdata]
    apply List.map_congr_left
    intro idx hidx
    have h1 : idx % 10 < 10 := by omega
    have h2 : idx / 10 < ceilMul08 t := by
      have := List.mem_range.mp hidx
      omega
    rw [getD_map_range _ _ 10 _ h1, getD_map_range _ _ (ceilMul08 t) _ h2]
  rw [decodeFromFrames, hst]
  have hcd : decide (ceilMul08 t ≤ t) = true := decide_eq_true hdt
  simp only [decode, getProgress, Option.getD_some, List.length_map, List.length_range,
    hcd, Bool.not_true, Bool.false_eq_true, if_false, hdc]
  simp only [hdd, utf8DecodeTrim_eq s rest hnz]
  exact ⟨trivial, trivial⟩

/-- C1 (amended): lossless round trip under the conditions the code actually
guarantees. For every sequence id and every string whose UTF-8 byte length is
not a multiple of 10 and whose encoding contains no 0x00 byte, feeding every
frame of `encodeData` into a fresh decoder and calling `decode` succeeds and
returns exactly the input string. (The two excluded cases genuinely fail:
see `roundTrip_counterexample` for the length-multiple-of-10 garbling; a NUL
byte is truncated away by the padding trim.) -/
theorem roundTrip_ok (q : Nat) (s : String)
    (h10 : (utf8Encode s).length % 10 ≠ 0)
    (hnz : (0 : Nat) ∉ utf8Encode s) :
    (decodeFromFrames (encodeData q s).frames).success = true ∧
    (decodeFromFrames (encodeData q s).frames).data = some s := by
  set L := (utf8Encode s).length with hL
  set D := (L + 9) / 10 with hD
  set P := max 4 ((D + 3) / 4) with hP
  set tt := D + P with htt
  obtain ⟨F, hfr, hFseq, hFidx, hFtot, hFchunk⟩ :
      ∃ F : Nat → AuroraFrame,
        (encodeData q s).frames = (List.range tt).map F ∧
        (∀ r, (F r).sequenceId = q) ∧
        (∀ r, (F r).frameIndex = r) ∧
        (∀ r, (F r).totalFrames = tt) ∧
        (∀ r, (F r).dataChunk = (List.range 10).map (fun bp =>
          (((List.range 10).map (fun bp2 =>
              rsEncode ((List.range D).map (fun fi =>
                (((List.range (D * 10)).map (fun i => (utf8Encode s).getD i 0)).getD
                  (fi * 10 + bp2) 0))) P)).getD bp []).getD r 0)) :=
    ⟨_, rfl, fun r => rfl, fun r => rfl, fun r => rfl, fun r => rfl⟩
  have ht : 1 ≤ tt := by omega
  have hLlt : L < D * 10 := by omega
  have hLd : L < ceilMul08 tt * 10 := by rw [ceilMul08]; omega
  have hdata : ∃ rest, (List.range (ceilMul08 tt * 10)).map
      (fun idx => (F (idx / 10)).dataChunk.getD (idx % 10) 0 % 256)
      = utf8Encode s ++ 0 :: rest := by
    apply range_map_prefix
    · exact hLd
    · intro i hi
      rw [hFchunk]
      rw [getD_map_range _ _ 10 _ (by omega : i % 10 < 10)]
      rw [getD_map_range _ _ 10 _ (by omega : i % 10 < 10)]
      have hi10 : i / 10 < D := by omega
      rw [rsEncode_getD_lt _ _ _ (by simpa using hi10)]
      rw [getD_map_range _ _ D _ hi10]
      have hidx : i / 10 * 10 + i % 10 = i := by omega
      rw [hidx]
      rw [getD_map_range _ _ (D * 10) _ (by omega : i < D * 10)]
      have hmem : (utf8Encode s).getD i 0 ∈ utf8Encode s := by
        rw [List.getD_eq_getElem?_getD, List.getElem?_eq_getElem hi, Option.getD_some]
        exact List.getElem_mem hi
      have hb := utf8Encode_lt s _ hmem
      omega
    · rw [hFchunk]
      rw [getD_map_range _ _ 10 _ (by omega : (utf8Encode s).length % 10 < 10)]
      rw [getD_map_range _ _ 10 _ (by omega : (utf8Encode s).length % 10 < 10)]
      have hi10 : (utf8Encode s).length / 10 < D := by omega
      rw [rsEncode_getD_lt _ _ _ (by simpa using hi10)]
      rw [getD_map_range _ _ D _ hi10]
      have hidx : (utf8Encode s).length / 10 * 10 + (utf8Encode s).length % 10 =
          (utf8Encode s).length := by omega
      rw [hidx]
      rw [getD_map_range _ _ (D * 10) _ (by omega : (utf8Encode s).length < D * 10)]
      rw [List.getD_eq_default _ _ (le_refl _)]
  rw [hfr]
  exact decode_full q tt F s hFseq hFidx hFtot ht hnz hdata

/-- C1 witness: the round trip at `s = "A"`, whose one-byte encoding has
length 1 (not a multiple of 10) and contains no NUL. -/
theorem roundTrip_ok_witness :
    (decodeFromFrames (encodeData 0x1234 "A").frames).success = true ∧
    (decodeFromFrames (encodeData 0x1234 "A").frames).data = some "A" :=
  roundTrip_ok 0x1234 "A" (by decide) (by decide)
